import Mathlib

/-!
Priority queues (sorted array, binary heap), `pqSort` and `topK`.

A shallow embedding of `pqsortedarray.cpp`, `pqheap.cpp` and `pqclient.cpp`.

Conventions of the embedding

* A raw C++ array (`DataPoint*`) is a `List DataPoint` whose length is the
  allocation size.  Every read and write of a raw array is bounds checked in
  the model: an access outside the allocation (undefined behaviour in C++)
  stops the run with `Fault.outOfBounds`.
* `error(msg)` of the Stanford library stops the run with `Fault.error msg`.
* `int` counters that the code never makes negative are natural numbers; `int`
  values that can be negative (the bound `k` of `topK`, heap indices with the
  sentinel `-1`) are integers.  Machine overflow of `int` is not modelled.
* A loop that may fail to terminate takes a fuel argument and ends with
  `Fault.outOfFuel` when the fuel is used up.
-/

/-- Modelled from the spec: the record type `DataPoint` is declared in
`datapoint.h`, which is not among the sources.  The spec describes it as a
label (text, never inspected for ordering) paired with a totally ordered numeric
priority that may be negative. -/
structure DataPoint where
  label : String
  priority : Int
deriving DecidableEq, Repr

/-- The value of a slot of a freshly allocated array (`new DataPoint[n]`): the
label is the empty string; the priority is indeterminate in C++ and is fixed to
`0` here.  No theorem below depends on the choice. -/
instance : Inhabited DataPoint := ⟨⟨"", 0⟩⟩

/-- The ways a run can stop without a result. -/
inductive Fault where
  /-- The Stanford library call `error(msg)` (an `ErrorException`). -/
  | error (msg : String)
  /-- A raw array was indexed outside its allocation. -/
  | outOfBounds (index : Int)
  /-- The fuel of a possibly non-terminating loop ran out. -/
  | outOfFuel
deriving DecidableEq, Repr

/-- Read of a raw array slot, `buf[i]`. -/
def readAt (buf : List DataPoint) (i : Nat) : Except Fault DataPoint :=
  match buf[i]? with
  | some d => .ok d
  | none => .error (.outOfBounds i)

/-- Write of a raw array slot, `buf[i] = d`. -/
def writeAt (buf : List DataPoint) (i : Nat) (d : DataPoint) : Except Fault (List DataPoint) :=
  if i < buf.length then .ok (buf.set i d) else .error (.outOfBounds i)

/-- Read of a raw array slot at a signed index. -/
def readAtInt (buf : List DataPoint) (i : Int) : Except Fault DataPoint :=
  if i < 0 then .error (.outOfBounds i) else readAt buf i.toNat

/-- Write of a raw array slot at a signed index. -/
def writeAtInt (buf : List DataPoint) (i : Int) (d : DataPoint) : Except Fault (List DataPoint) :=
  if i < 0 then .error (.outOfBounds i) else writeAt buf i.toNat d

/-- Checked `Vector<DataPoint>::operator[]` of the Stanford library, used as an
rvalue: an index outside `[0, size)` calls `error`.  The library is not part of
the repository; the text of its message, which also names the index and the
valid range, is abbreviated. -/
def vecGet (v : List DataPoint) (i : Nat) : Except Fault DataPoint :=
  match v[i]? with
  | some d => .ok d
  | none => .error (.error "Vector::operator []: index out of range")

/-- Checked `Vector<DataPoint>::operator[]` of the Stanford library, used as the
target of an assignment: an index outside `[0, size)` calls `error` (message
abbreviated as in `vecGet`). -/
def vecSet (v : List DataPoint) (i : Nat) (d : DataPoint) : Except Fault (List DataPoint) :=
  if i < v.length then .ok (v.set i d) else .error (.error "Vector::operator []: index out of range")

/-! ## pqsortedarray.cpp -/

/-- The constant `INITIAL_CAPACITY` of both queue implementations. -/
def INITIAL_CAPACITY : Nat := 10

/-- The member variables of `PQSortedArray`. -/
structure PQSortedArray where
  _elements : List DataPoint
  _numFilled : Nat
  _numAllocated : Nat
deriving DecidableEq, Repr

namespace PQSortedArray

/-- The constructor `PQSortedArray::PQSortedArray()`. -/
def new : PQSortedArray :=
  { _elements := List.replicate INITIAL_CAPACITY default
    _numFilled := 0
    _numAllocated := INITIAL_CAPACITY }

/-- The loop `for (int i = 0; i < n; i++) dst[i] = src[i];`, entered with
`cnt` iterations left and the loop variable at `i`. -/
def copyLoop (src : List DataPoint) : Nat → Nat → List DataPoint → Except Fault (List DataPoint)
  | 0, _, dst => .ok dst
  | cnt + 1, i, dst =>
    match readAt src i with
    | .error f => .error f
    | .ok x =>
      match writeAt dst i x with
      | .error f => .error f
      | .ok dst1 => copyLoop src cnt (i + 1) dst1

/-- The search loop of `enqueue`,
`for (int i = 0; i < _numFilled; i++) if (elem.priority >= _elements[i].priority) { insertPos = i; break; }`
with `insertPos` initialised to `_numFilled`; entered with `cnt` iterations
left and the loop variable at `i`. -/
def findInsertPos (elem : DataPoint) (buf : List DataPoint) (numFilled : Nat) :
    Nat → Nat → Except Fault Nat
  | 0, _ => .ok numFilled
  | cnt + 1, i =>
    match readAt buf i with
    | .error f => .error f
    | .ok x => if elem.priority ≥ x.priority then .ok i else findInsertPos elem buf numFilled cnt (i + 1)

/-- The shift loop of `enqueue`,
`for (int i = _numFilled; i > insertPos; i--) newElements[i] = _elements[i - 1];`
entered with the loop variable at the first argument. -/
def shiftLoop (src : List DataPoint) (insertPos : Nat) :
    Nat → List DataPoint → Except Fault (List DataPoint)
  | 0, dst => .ok dst
  | i + 1, dst =>
    if i + 1 > insertPos then
      match readAt src i with
      | .error f => .error f
      | .ok x =>
        match writeAt dst (i + 1) x with
        | .error f => .error f
        | .ok dst1 => shiftLoop src insertPos i dst1
    else .ok dst

/-- The first block of `enqueue`: when `_numFilled == _numAllocated - 1` the
buffer is replaced by one of twice the size holding the filled slots. -/
def grow (pq : PQSortedArray) : Except Fault PQSortedArray :=
  if (pq._numFilled : Int) = (pq._numAllocated : Int) - 1 then
    match copyLoop pq._elements pq._numFilled 0 (List.replicate (pq._numAllocated * 2) default) with
    | .error f => .error f
    | .ok newElements =>
      .ok { pq with _elements := newElements, _numAllocated := pq._numAllocated * 2 }
  else .ok pq

/-- The method `PQSortedArray::enqueue`. -/
def enqueue (pq : PQSortedArray) (elem : DataPoint) : Except Fault PQSortedArray :=
  match grow pq with
  | .error f => .error f
  | .ok pq1 =>
    match findInsertPos elem pq1._elements pq1._numFilled pq1._numFilled 0 with
    | .error f => .error f
    | .ok insertPos =>
      let numFilled := pq1._numFilled + 1
      match shiftLoop pq1._elements insertPos numFilled
          (List.replicate pq1._numAllocated default) with
      | .error f => .error f
      | .ok shifted =>
        match copyLoop pq1._elements insertPos 0 shifted with
        | .error f => .error f
        | .ok copied =>
          match writeAt copied insertPos elem with
          | .error f => .error f
          | .ok newElements =>
            .ok { _elements := newElements
                  _numFilled := numFilled
                  _numAllocated := pq1._numAllocated }

/-- The method `PQSortedArray::size`. -/
def size (pq : PQSortedArray) : Nat := pq._numFilled

/-- The method `PQSortedArray::isEmpty`. -/
def isEmpty (pq : PQSortedArray) : Bool := pq.size == 0

/-- The method `PQSortedArray::peek` (a `const` method: it cannot change the
state, so only its result is returned). -/
def peek (pq : PQSortedArray) : Except Fault DataPoint :=
  if pq.isEmpty then .error (.error "Cannot peek empty pqueue")
  else readAt pq._elements (pq._numFilled - 1)

/-- The method `PQSortedArray::dequeue`: the result of the call together with
the state of the queue after the call (also when the call raised an error). -/
def dequeue (pq : PQSortedArray) : Except Fault DataPoint × PQSortedArray :=
  if pq.isEmpty then (.error (.error "Cannot dequeue empty pqueue"), pq)
  else
    let pq1 := { pq with _numFilled := pq._numFilled - 1 }
    (readAt pq1._elements pq1._numFilled, pq1)

/-- The method `PQSortedArray::clear`. -/
def clear (pq : PQSortedArray) : PQSortedArray := { pq with _numFilled := 0 }

/-- The loop of `PQSortedArray::validateInternalState`,
`for (int i = 1; i < size(); i++) if (_elements[i].priority > _elements[i-1].priority) error(...)`,
entered with `cnt` iterations left and the loop variable at `i`;
`integerToString` is the decimal representation. -/
def validateLoop (pq : PQSortedArray) : Nat → Nat → Except Fault Unit
  | 0, _ => .ok ()
  | cnt + 1, i =>
    match readAt pq._elements i with
    | .error f => .error f
    | .ok x =>
      match readAt pq._elements (i - 1) with
      | .error f => .error f
      | .ok y =>
        if x.priority > y.priority then
          .error (.error ("Array elements out of order at index " ++ toString i))
        else validateLoop pq cnt (i + 1)

/-- The method `PQSortedArray::validateInternalState`. -/
def validateInternalState (pq : PQSortedArray) : Except Fault Unit :=
  if pq._numFilled > pq._numAllocated then
    .error (.error "Too many elements in not enough space!")
  else validateLoop pq (pq.size - 1) 1

/-- The filled region `_elements[0 .. _numFilled)`: the stored records. -/
def filled (pq : PQSortedArray) : List DataPoint := pq._elements.take pq._numFilled

end PQSortedArray

/-! ## pqheap.cpp -/

/-- The member variables of `PQHeap`. -/
structure PQHeap where
  _elements : List DataPoint
  _numFilled : Nat
  _numAllocated : Nat
deriving DecidableEq, Repr

namespace PQHeap

/-- The constructor `PQHeap::PQHeap()`. -/
def new : PQHeap :=
  { _elements := List.replicate INITIAL_CAPACITY default
    _numFilled := 0
    _numAllocated := INITIAL_CAPACITY }

/-- The method `PQHeap::size`. -/
def size (pq : PQHeap) : Nat := pq._numFilled

/-- The method `PQHeap::isEmpty`. -/
def isEmpty (pq : PQHeap) : Bool := pq.size == 0

/-- The method `PQHeap::clear`. -/
def clear (pq : PQHeap) : PQHeap := { pq with _numFilled := 0 }

/-- The method `PQHeap::peek` (a `const` method: only its result is returned). -/
def peek (pq : PQHeap) : Except Fault DataPoint :=
  if pq.isEmpty then .error (.error "Cannot peek empty pqueue")
  else readAt pq._elements 0

/-- The method `PQHeap::getParentIndex`; `/` on `int` truncates toward zero. -/
def getParentIndex (curIndex : Int) : Int :=
  if Int.tdiv (curIndex - 1) 2 < 0 then -1 else Int.tdiv (curIndex - 1) 2

/-- The method `PQHeap::getLeftChildIndex`. -/
def getLeftChildIndex (pq : PQHeap) (curIndex : Int) : Int :=
  if 2 * curIndex + 1 ≥ (pq._numFilled : Int) then -1 else 2 * curIndex + 1

/-- The method `PQHeap::getRightChildIndex`. -/
def getRightChildIndex (pq : PQHeap) (curIndex : Int) : Int :=
  if 2 * curIndex + 2 ≥ (pq._numFilled : Int) then -1 else 2 * curIndex + 2

/-- The first block of `PQHeap::enqueue`, the same statements as in
`PQSortedArray::enqueue`: when `_numFilled == _numAllocated - 1` the buffer is
replaced by one of twice the size holding the filled slots. -/
def grow (pq : PQHeap) : Except Fault PQHeap :=
  if (pq._numFilled : Int) = (pq._numAllocated : Int) - 1 then
    match PQSortedArray.copyLoop pq._elements pq._numFilled 0
        (List.replicate (pq._numAllocated * 2) default) with
    | .error f => .error f
    | .ok newElements =>
      .ok { pq with _elements := newElements, _numAllocated := pq._numAllocated * 2 }
  else .ok pq

/-- The loop of `PQHeap::enqueue`,
`while (parentSpot != 0 && elem.priority < _elements[getParentIndex(childSpot)].priority) { ... }`;
the right operand of `&&` is evaluated only when the left one is true.  The
fuel bounds the number of evaluations of the loop condition. -/
def enqueueLoop (elem : DataPoint) : Nat → List DataPoint → Int → Int → Except Fault (List DataPoint)
  | 0, _, _, _ => .error .outOfFuel
  | fuel + 1, elements, childSpot, parentSpot =>
    if parentSpot ≠ 0 then
      match readAtInt elements (getParentIndex childSpot) with
      | .error f => .error f
      | .ok p =>
        if elem.priority < p.priority then
          match readAtInt elements (getParentIndex childSpot) with
          | .error f => .error f
          | .ok x =>
            match writeAtInt elements childSpot x with
            | .error f => .error f
            | .ok e1 =>
              match writeAtInt e1 (getParentIndex childSpot) elem with
              | .error f => .error f
              | .ok e2 =>
                enqueueLoop elem fuel e2 (getParentIndex childSpot) (getParentIndex childSpot)
        else .ok elements
    else .ok elements

/-- The method `PQHeap::enqueue`.  Its loop moves `childSpot` to a strictly
smaller index at every iteration, so `_numFilled + 1` evaluations of the loop
condition are enough; the loop is run with that much fuel. -/
def enqueue (pq : PQHeap) (elem : DataPoint) : Except Fault PQHeap :=
  match grow pq with
  | .error f => .error f
  | .ok pq1 =>
    match writeAtInt pq1._elements (pq1._numFilled : Int) elem with
    | .error f => .error f
    | .ok e0 =>
      match enqueueLoop elem (pq1._numFilled + 1) e0 (pq1._numFilled : Int) 1 with
      | .error f => .error f
      | .ok e1 => .ok { pq1 with _elements := e1, _numFilled := pq1._numFilled + 1 }

/-- The method `PQHeap::getSmallerChildIndex`; it reads the buffer at both child
indices, sentinel or not. -/
def getSmallerChildIndex (pq : PQHeap) (parentIndex : Int) : Except Fault Int := do
  let l ← readAtInt pq._elements (pq.getLeftChildIndex parentIndex)
  let r ← readAtInt pq._elements (pq.getRightChildIndex parentIndex)
  if l.priority < r.priority then pure (pq.getLeftChildIndex parentIndex)
  else pure (pq.getRightChildIndex parentIndex)

/-- The condition of the `if` inside the loop of `PQHeap::dequeue`; the right
operand of `||` is evaluated only when the left one is false. -/
def dequeueTest (pq : PQHeap) (parentSpot : Int) : Except Fault Bool := do
  let p ← readAtInt pq._elements parentSpot
  let l ← readAtInt pq._elements (pq.getLeftChildIndex parentSpot)
  if p.priority > l.priority then pure true
  else
    let r ← readAtInt pq._elements (pq.getRightChildIndex parentSpot)
    pure (decide (p.priority > r.priority))

/-- The loop of `PQHeap::validateInternalState`,
`for (int i = 0; i < size(); i++) if (... || ...) error(...)`, entered with
`cnt` iterations left and the loop variable at `i`.  The condition of its `if`
is the expression `dequeueTest` with `i` for `parentSpot`. -/
def validateLoop (pq : PQHeap) : Nat → Nat → Except Fault Unit
  | 0, _ => .ok ()
  | cnt + 1, i =>
    match pq.dequeueTest (i : Int) with
    | .error f => .error f
    | .ok outOfOrder =>
      if outOfOrder then
        .error (.error ("Array elements out of order at index " ++ toString i))
      else validateLoop pq cnt (i + 1)

/-- The method `PQHeap::validateInternalState`. -/
def validateInternalState (pq : PQHeap) : Except Fault Unit :=
  if pq._numFilled > pq._numAllocated then
    .error (.error "Too many elements in not enough space!")
  else validateLoop pq pq.size 0

/-- The filled region `_elements[0 .. _numFilled)`: the stored records. -/
def filled (pq : PQHeap) : List DataPoint := pq._elements.take pq._numFilled

/-- The loop of `PQHeap::dequeue`,
`while (getLeftChildIndex(childSpot) != -1) { if (...) { ... } }`; the fuel
bounds the number of evaluations of the loop condition.  The fill count is not
decremented until the loop has ended. -/
def dequeueLoop (bubbler : Int) : Nat → PQHeap → Int → Int → Except Fault PQHeap
  | 0, _, _, _ => .error .outOfFuel
  | fuel + 1, pq, parentSpot, childSpot =>
    if pq.getLeftChildIndex childSpot ≠ -1 then do
      let swap ← pq.dequeueTest parentSpot
      if swap then
        let child ← pq.getSmallerChildIndex parentSpot
        let c ← readAtInt pq._elements child
        let e1 ← writeAtInt pq._elements parentSpot c
        let b ← readAtInt e1 bubbler
        let e2 ← writeAtInt e1 child b
        dequeueLoop bubbler fuel { pq with _elements := e2 } child child
      else dequeueLoop bubbler fuel pq parentSpot childSpot
    else pure pq

/-- The body of `PQHeap::dequeue` after its emptiness check. -/
def dequeueBody (fuel : Nat) (pq : PQHeap) : Except Fault (DataPoint × PQHeap) := do
  let dequeuingValue ← pq.peek
  let bubbler : Int := (pq._numFilled : Int) - 1
  let b ← readAtInt pq._elements bubbler
  let e1 ← writeAt pq._elements 0 b
  let pq1 ← dequeueLoop bubbler fuel { pq with _elements := e1 } 0 0
  pure (dequeuingValue, { pq1 with _numFilled := pq1._numFilled - 1 })

/-- The method `PQHeap::dequeue`: the result of the call together with the
state of the queue after the call.  The state is the one at the moment the call
returned or raised its error; after an out-of-bounds access or when the fuel
ran out no state is defined and the initial one is reported. -/
def dequeue (fuel : Nat) (pq : PQHeap) : Except Fault DataPoint × PQHeap :=
  if pq.isEmpty then (.error (.error "Cannot dequeue an empty pqueue"), pq)
  else
    match dequeueBody fuel pq with
    | .error f => (.error f, pq)
    | .ok (d, pq1) => (.ok d, pq1)

end PQHeap

/-! ## pqclient.cpp

The input stream of `topK` is the list of the records that `stream >> cur`
yields, in order; a `Vector<DataPoint>` is a list. -/

/-- The first loop of `pqSort`,
`for (int i = 0; i < v.size(); i++) pq.enqueue(v[i]);`, entered with `cnt`
iterations left and the loop variable at `i`. -/
def pqSortFill (v : List DataPoint) : Nat → Nat → PQSortedArray → Except Fault PQSortedArray
  | 0, _, pq => .ok pq
  | cnt + 1, i, pq =>
    match vecGet v i with
    | .error f => .error f
    | .ok x =>
      match pq.enqueue x with
      | .error f => .error f
      | .ok pq1 => pqSortFill v cnt (i + 1) pq1

/-- The second loop of `pqSort`,
`for (int i = 0; i < v.size(); i++) v[i] = pq.dequeue();`, entered with `cnt`
iterations left and the loop variable at `i`. -/
def pqSortDrain : Nat → Nat → PQSortedArray → List DataPoint → Except Fault (List DataPoint)
  | 0, _, _, v => .ok v
  | cnt + 1, i, pq, v =>
    match pq.dequeue with
    | (.error f, _) => .error f
    | (.ok x, pq1) =>
      match vecSet v i x with
      | .error f => .error f
      | .ok v1 => pqSortDrain cnt (i + 1) pq1 v1

/-- The function `pqSort`: the contents of `v` after the call. -/
def pqSort (v : List DataPoint) : Except Fault (List DataPoint) :=
  match pqSortFill v v.length 0 PQSortedArray.new with
  | .error f => .error f
  | .ok pq => pqSortDrain v.length 0 pq v

/-- The loop `while (stream >> cur) { ... }` of `topK`. -/
def topKLoop (k : Int) :
    List DataPoint → PQSortedArray → List DataPoint → Except Fault (PQSortedArray × List DataPoint)
  | [], data, trueData => .ok (data, trueData)
  | cur :: stream, data, trueData =>
    if (data.size : Int) < k then
      match data.enqueue cur with
      | .error f => .error f
      | .ok data1 => topKLoop k stream data1 (trueData ++ [cur])
    else
      match data.peek with
      | .error f => .error f
      | .ok weakest =>
        if cur.priority > weakest.priority then
          match data.dequeue with
          | (.error f, _) => .error f
          | (.ok _, data1) =>
            match data1.enqueue cur with
            | .error f => .error f
            | .ok data2 => topKLoop k stream data2 trueData
        else topKLoop k stream data trueData

/-- The loop `for (int i = k - 1; i >= 0; i--) trueData[i] = data.dequeue();`
of `topK`, entered with the loop variable at the first argument minus one.  The
right operand of the assignment is evaluated before the left one. -/
def topKDrain : Nat → PQSortedArray → List DataPoint → Except Fault (List DataPoint)
  | 0, _, trueData => .ok trueData
  | i + 1, data, trueData =>
    match data.dequeue with
    | (.error f, _) => .error f
    | (.ok x, data1) =>
      match vecSet trueData i x with
      | .error f => .error f
      | .ok t1 => topKDrain i data1 t1

/-- The function `topK`. -/
def topK (stream : List DataPoint) (k : Int) : Except Fault (List DataPoint) :=
  match topKLoop k stream PQSortedArray.new [] with
  | .error f => .error f
  | .ok (data, trueData) =>
    if trueData.length > 0 then topKDrain k.toNat data trueData else .ok trueData

/-! ## Notions used to state the properties -/

/-- The order the sorted array keeps its filled region in: `a` may stand before
`b` when the priority of `a` is at least the priority of `b`. -/
def prioGe (a b : DataPoint) : Prop := a.priority ≥ b.priority

instance : DecidableRel prioGe := fun a b => inferInstanceAs (Decidable (a.priority ≥ b.priority))

instance : IsTotal DataPoint prioGe := ⟨fun a b => le_total b.priority a.priority⟩

instance : IsTrans DataPoint prioGe := ⟨fun _ _ _ hab hbc => le_trans hbc hab⟩

namespace PQSortedArray

/-- The representation invariant of the buffer: `_numAllocated` is the size of
the allocation and at least one slot is free (`_numFilled <= _numAllocated - 1`). -/
def WF (pq : PQSortedArray) : Prop :=
  pq._elements.length = pq._numAllocated ∧ pq._numFilled + 1 ≤ pq._numAllocated

instance (pq : PQSortedArray) : Decidable pq.WF :=
  inferInstanceAs (Decidable (_ ∧ _))

/-- The states a `PQSortedArray` can be in: the freshly constructed one and
every state reached from it by calls of `enqueue`, `dequeue` (failing calls
included, with the state they leave behind) and `clear`. -/
inductive Reachable : PQSortedArray → Prop
  | fresh : Reachable PQSortedArray.new
  | enqueue {pq pq1 : PQSortedArray} (elem : DataPoint) :
      Reachable pq → pq.enqueue elem = .ok pq1 → Reachable pq1
  | dequeue {pq : PQSortedArray} : Reachable pq → Reachable pq.dequeue.2
  | clear {pq : PQSortedArray} : Reachable pq → Reachable pq.clear

/-- Enqueues the records of a list one after the other, first record first. -/
def enqueueAll : List DataPoint → PQSortedArray → Except Fault PQSortedArray
  | [], pq => .ok pq
  | x :: l, pq =>
    match pq.enqueue x with
    | .error f => .error f
    | .ok pq1 => enqueueAll l pq1

/-- Calls `dequeue` the given number of times and collects the returned
records in the order of the calls; stops at the first call that fails. -/
def dequeueN : Nat → PQSortedArray → Except Fault (List DataPoint) × PQSortedArray
  | 0, pq => (.ok [], pq)
  | n + 1, pq =>
    match pq.dequeue with
    | (.error f, pq1) => (.error f, pq1)
    | (.ok d, pq1) =>
      match dequeueN n pq1 with
      | (.error f, pq2) => (.error f, pq2)
      | (.ok ds, pq2) => (.ok (d :: ds), pq2)

end PQSortedArray

/-- The effect of one iteration of the loop of `topK` on the filled region `D`
of its working queue, for a bound `k ≥ 1`: a proof device, related to the code
by `topKLoop_ok`. -/
def topKStep (k : Nat) (D : List DataPoint) (c : DataPoint) : List DataPoint :=
  if D.length < k then List.orderedInsert prioGe c D
  else
    match D.getLast? with
    | none => D
    | some w => if c.priority > w.priority then List.orderedInsert prioGe c D.dropLast else D

/-- The function `topKStep` on priorities alone. -/
def topKStepInt (k : Nat) (D : List Int) (c : Int) : List Int :=
  if D.length < k then List.orderedInsert (· ≥ ·) c D
  else
    match D.getLast? with
    | none => D
    | some w => if c > w then List.orderedInsert (· ≥ ·) c D.dropLast else D

namespace PQSortedArray

/-- The state of a fresh queue after `enqueue({"Zoe", -3})`. -/
def zoe : PQSortedArray :=
  { _elements := ⟨"Zoe", -3⟩ :: List.replicate 9 default
    _numFilled := 1
    _numAllocated := 10 }

/-- A call of one of the state-changing methods of the queue. -/
inductive Op where
  | enqueue (elem : DataPoint)
  | dequeue
  | clear
deriving DecidableEq, Repr

/-- Runs a sequence of calls on a queue and counts, since the most recent
`clear` (or since the start), the calls of `enqueue` and the calls of `dequeue`
that returned a record.  A call of `dequeue` that raises the empty-queue error
is not counted and the run goes on from the state it leaves behind, as when the
caller catches the error. -/
def runOps : List Op → PQSortedArray → Nat → Nat → Except Fault (PQSortedArray × Nat × Nat)
  | [], pq, enq, deq => .ok (pq, enq, deq)
  | .enqueue elem :: ops, pq, enq, deq =>
    match pq.enqueue elem with
    | .error f => .error f
    | .ok pq1 => runOps ops pq1 (enq + 1) deq
  | .dequeue :: ops, pq, enq, deq =>
    match pq.dequeue with
    | (.ok _, pq1) => runOps ops pq1 enq (deq + 1)
    | (.error (.error _), pq1) => runOps ops pq1 enq deq
    | (.error f, _) => .error f
  | .clear :: ops, pq, _, _ => runOps ops pq.clear 0 0

end PQSortedArray

/-- A run that does not end in a call of `error`. -/
def NoError {α : Type} (r : Except Fault α) : Prop := ∀ msg, r ≠ .error (.error msg)

/-- The state of a fresh queue after `enqueue({"Zoe", -3})` followed by
`enqueue({"Elmo", 10})`. -/
def PQSortedArray.zoeElmo : PQSortedArray :=
  { _elements := ⟨"Elmo", 10⟩ :: ⟨"Zoe", -3⟩ :: List.replicate 8 default
    _numFilled := 2
    _numAllocated := 10 }

/-- The priority stored at index `j` of a buffer. -/
def prioAt (xs : List DataPoint) (j : Nat) : Int := (xs.getD j default).priority

/-- The min-heap property of a filled region: every record's priority is at
most the priority of each of its existing children, the children of index `i`
being at `2i+1` and `2i+2`. -/
def IsMinHeap (xs : List DataPoint) : Prop :=
  ∀ i, i < xs.length →
    (2 * i + 1 < xs.length → prioAt xs i ≤ prioAt xs (2 * i + 1)) ∧
    (2 * i + 2 < xs.length → prioAt xs i ≤ prioAt xs (2 * i + 2))

instance (xs : List DataPoint) : Decidable (IsMinHeap xs) :=
  inferInstanceAs (Decidable (∀ i, i < xs.length → _))

namespace PQHeap

/-- The representation invariant of the buffer: `_numAllocated` is the size of
the allocation and at least one slot is free (`_numFilled <= _numAllocated - 1`). -/
def WF (pq : PQHeap) : Prop :=
  pq._elements.length = pq._numAllocated ∧ pq._numFilled + 1 ≤ pq._numAllocated

instance (pq : PQHeap) : Decidable pq.WF :=
  inferInstanceAs (Decidable (_ ∧ _))

/-- Enqueues the records of a list one after the other, first record first. -/
def enqueueAll : List DataPoint → PQHeap → Except Fault PQHeap
  | [], pq => .ok pq
  | x :: l, pq =>
    match pq.enqueue x with
    | .error f => .error f
    | .ok pq1 => enqueueAll l pq1

end PQHeap

/-- The state of a fresh heap after `enqueue({"A", 1})`, `enqueue({"B", 3})`
and `enqueue({"C", 2})`. -/
def PQHeap.oneThreeTwo : PQHeap :=
  { _elements := ⟨"A", 1⟩ :: ⟨"B", 3⟩ :: ⟨"C", 2⟩ :: List.replicate 7 default
    _numFilled := 3
    _numAllocated := 10 }

/-- The state of a fresh sorted-array queue after nine calls of `enqueue`, with
the priorities 1 to 9 in this order. -/
def PQSortedArray.nine : PQSortedArray :=
  { _elements := [⟨"", 9⟩, ⟨"", 8⟩, ⟨"", 7⟩, ⟨"", 6⟩, ⟨"", 5⟩, ⟨"", 4⟩, ⟨"", 3⟩, ⟨"", 2⟩,
      ⟨"", 1⟩, default]
    _numFilled := 9
    _numAllocated := 10 }

/-! ## Theorems -/

/-! ## The loops of `PQSortedArray::enqueue` -/

theorem readAt_eq_ok {buf : List DataPoint} {i : Nat} (h : i < buf.length) :
    readAt buf i = .ok buf[i] := by
  simp [readAt, List.getElem?_eq_getElem h]

theorem writeAt_eq_ok {buf : List DataPoint} {i : Nat} (h : i < buf.length) (d : DataPoint) :
    writeAt buf i d = .ok (buf.set i d) := by
  simp [writeAt, h]

namespace PQSortedArray

theorem copyLoop_ok (src : List DataPoint) : ∀ (cnt i : Nat) (dst : List DataPoint),
    i + cnt ≤ src.length → i + cnt ≤ dst.length →
    ∃ dst1, copyLoop src cnt i dst = .ok dst1 ∧ dst1.length = dst.length ∧
      ∀ j, dst1[j]? = if i ≤ j ∧ j < i + cnt then src[j]? else dst[j]? := by
  intro cnt
  induction cnt with
  | zero =>
    intro i dst _ _
    refine ⟨dst, rfl, rfl, fun j => ?_⟩
    have : ¬ (i ≤ j ∧ j < i + 0) := by omega
    rw [if_neg this]
  | succ cnt ih =>
    intro i dst hs hd
    have hi : i < src.length := by omega
    have hi2 : i < dst.length := by omega
    obtain ⟨dst1, h1, h2, h3⟩ := ih (i + 1) (dst.set i src[i]) (by omega) (by simp; omega)
    refine ⟨dst1, ?_, by simpa using h2, fun j => ?_⟩
    · simp [copyLoop, readAt_eq_ok hi, writeAt_eq_ok hi2, h1]
    · rw [h3, List.getElem?_set]
      by_cases hj : i = j
      · subst hj
        simp [hi2, List.getElem?_eq_getElem hi]
      · by_cases h4 : i + 1 ≤ j ∧ j < i + 1 + cnt
        · have : i ≤ j ∧ j < i + (cnt + 1) := by omega
          simp [h4, this]
        · have : ¬ (i ≤ j ∧ j < i + (cnt + 1)) := by omega
          simp [h4, this, hj]

theorem shiftLoop_ok (src : List DataPoint) (insertPos : Nat) : ∀ (i : Nat) (dst : List DataPoint),
    i ≤ src.length → (insertPos < i → i < dst.length) →
    ∃ dst1, shiftLoop src insertPos i dst = .ok dst1 ∧ dst1.length = dst.length ∧
      ∀ j, dst1[j]? = if insertPos < j ∧ j ≤ i then src[j - 1]? else dst[j]? := by
  intro i
  induction i with
  | zero =>
    intro dst _ _
    refine ⟨dst, rfl, rfl, fun j => ?_⟩
    have : ¬ (insertPos < j ∧ j ≤ 0) := by omega
    rw [if_neg this]
  | succ i ih =>
    intro dst hs hd
    by_cases hlt : insertPos < i + 1
    · have hi : i < src.length := by omega
      have hi2 : i + 1 < dst.length := hd hlt
      obtain ⟨dst1, h1, h2, h3⟩ := ih (dst.set (i + 1) src[i]) (by omega) (by simp; omega)
      refine ⟨dst1, ?_, by simpa using h2, fun j => ?_⟩
      · simp [shiftLoop, hlt, readAt_eq_ok hi, writeAt_eq_ok hi2, h1]
      · rw [h3, List.getElem?_set]
        by_cases hj : i + 1 = j
        · subst hj
          have : ¬ (insertPos < i + 1 ∧ i + 1 ≤ i) := by omega
          simp [hi2, List.getElem?_eq_getElem hi, hlt]
        · by_cases h4 : insertPos < j ∧ j ≤ i
          · have : insertPos < j ∧ j ≤ i + 1 := by omega
            simp [h4, this]
          · have : ¬ (insertPos < j ∧ j ≤ i + 1) := by omega
            simp [h4, this, hj]
    · refine ⟨dst, ?_, rfl, fun j => ?_⟩
      · simp [shiftLoop, hlt]
      · have : ¬ (insertPos < j ∧ j ≤ i + 1) := by omega
        simp [this]

theorem findInsertPos_ok (elem : DataPoint) (buf : List DataPoint) (n : Nat) (hn : n ≤ buf.length) :
    ∀ (cnt i : Nat), i + cnt = n →
    ∃ p, findInsertPos elem buf n cnt i = .ok p ∧ i ≤ p ∧ p ≤ n ∧
      (∀ j, i ≤ j → j < p → ∀ x, buf[j]? = some x → ¬ elem.priority ≥ x.priority) ∧
      (p < n → ∀ x, buf[p]? = some x → elem.priority ≥ x.priority) := by
  intro cnt
  induction cnt with
  | zero =>
    intro i hi
    refine ⟨n, rfl, by omega, le_refl _, fun j h1 h2 => by omega, fun h => absurd h (lt_irrefl _)⟩
  | succ cnt ih =>
    intro i hi
    have hlt : i < buf.length := by omega
    by_cases hc : elem.priority ≥ buf[i].priority
    · refine ⟨i, ?_, le_refl _, by omega, fun j h1 h2 => by omega, fun _ x hx => ?_⟩
      · simp [findInsertPos, readAt_eq_ok hlt, hc]
      · rw [List.getElem?_eq_getElem hlt] at hx
        cases hx
        exact hc
    · obtain ⟨p, h1, h2, h3, h4, h5⟩ := ih (i + 1) (by omega)
      refine ⟨p, ?_, by omega, h3, fun j hj1 hj2 x hx => ?_, h5⟩
      · simp [findInsertPos, readAt_eq_ok hlt, hc, h1]
      · by_cases hji : j = i
        · subst hji
          rw [List.getElem?_eq_getElem hlt] at hx
          cases hx
          exact hc
        · exact h4 j (by omega) hj2 x hx

end PQSortedArray

/-! ## The effect of `PQSortedArray::enqueue` on the filled region -/

theorem orderedInsert_eq_of_pos (e : DataPoint) : ∀ (xs : List DataPoint) (p : Nat),
    p ≤ xs.length →
    (∀ j, j < p → ∀ x, xs[j]? = some x → ¬ prioGe e x) →
    (p < xs.length → ∀ x, xs[p]? = some x → prioGe e x) →
    List.orderedInsert prioGe e xs = xs.take p ++ e :: xs.drop p := by
  intro xs
  induction xs with
  | nil =>
    intro p hp _ _
    have : p = 0 := by simpa using hp
    subst this
    simp
  | cons a t ih =>
    intro p hp h1 h2
    cases p with
    | zero =>
      have := h2 (by simp) a (by simp)
      simp [List.orderedInsert, this]
    | succ p =>
      have hna : ¬ prioGe e a := h1 0 (by omega) a (by simp)
      have := ih p (by simpa using hp)
        (fun j hj x hx => h1 (j + 1) (by omega) x (by simpa using hx))
        (fun hlt x hx => h2 (by simpa using hlt) x (by simpa using hx))
      simp [List.orderedInsert, hna, this]

namespace PQSortedArray

theorem grow_ok (pq : PQSortedArray) (h : pq.WF) :
    ∃ pq1, pq.grow = .ok pq1 ∧ pq1._numFilled = pq._numFilled ∧
      pq1._elements.length = pq1._numAllocated ∧ pq1._numFilled + 2 ≤ pq1._numAllocated ∧
      pq1.filled = pq.filled ∧
      pq1._numAllocated =
        (if pq._numFilled + 1 = pq._numAllocated then 2 * pq._numAllocated else pq._numAllocated) := by
  obtain ⟨hlen, hcap⟩ := h
  by_cases hg : pq._numFilled + 1 = pq._numAllocated
  · have hg2 : (pq._numFilled : Int) = (pq._numAllocated : Int) - 1 := by omega
    obtain ⟨dst1, h1, h2, h3⟩ := copyLoop_ok pq._elements pq._numFilled 0
      (List.replicate (pq._numAllocated * 2) default) (by omega) (by simp; omega)
    refine ⟨{ pq with _elements := dst1, _numAllocated := pq._numAllocated * 2 }, ?_, rfl, ?_, ?_, ?_, ?_⟩
    · simp [grow, hg2, h1]
    · simpa using h2
    · simp; omega
    · apply List.ext_getElem?
      intro j
      simp only [filled, List.getElem?_take, h3]
      by_cases hj : j < pq._numFilled
      · simp [hj]
      · simp [hj]
    · simp [hg]; omega
  · have hg2 : ¬ (pq._numFilled : Int) = (pq._numAllocated : Int) - 1 := by omega
    refine ⟨pq, ?_, rfl, hlen, by omega, rfl, ?_⟩
    · simp [grow, hg2]
    · simp [hg]

theorem enqueue_ok (pq : PQSortedArray) (elem : DataPoint) (h : pq.WF) :
    ∃ pq1, pq.enqueue elem = .ok pq1 ∧ pq1.WF ∧ pq1._numFilled = pq._numFilled + 1 ∧
      pq1.filled = List.orderedInsert prioGe elem pq.filled ∧
      pq1._numAllocated =
        (if pq._numFilled + 1 = pq._numAllocated then 2 * pq._numAllocated else pq._numAllocated) := by
  obtain ⟨pq1, hgrow, hn, hlen, hcap, hfilled, hcapEq⟩ := grow_ok pq h
  obtain ⟨p, hfind, -, hpn, hbefore, hat⟩ :=
    findInsertPos_ok elem pq1._elements pq1._numFilled (by omega) pq1._numFilled 0 (by omega)
  obtain ⟨shifted, hshift, hslen, hsget⟩ := shiftLoop_ok pq1._elements p (pq1._numFilled + 1)
    (List.replicate pq1._numAllocated default) (by omega) (fun _ => by simp; omega)
  obtain ⟨copied, hcopy, hclen, hcget⟩ := copyLoop_ok pq1._elements p 0 shifted
    (by omega) (by simp [hslen]; omega)
  have hplt : p < copied.length := by simp [hclen, hslen]; omega
  refine ⟨{ _elements := copied.set p elem, _numFilled := pq1._numFilled + 1,
            _numAllocated := pq1._numAllocated }, ?_, ?_, ?_, ?_, ?_⟩
  · simp [enqueue, hgrow, hfind, hshift, hcopy, writeAt_eq_ok hplt]
  · constructor
    · simp [hclen, hslen]
    · simp; omega
  · simp [hn]
  · rw [← hfilled]
    have hxs : pq1.filled.length = pq1._numFilled := by simp [filled]; omega
    rw [orderedInsert_eq_of_pos elem pq1.filled p (by omega)
      (fun j hj x hx => hbefore j (by omega) (by omega) x (by
        simp only [filled, List.getElem?_take] at hx
        have : j < pq1._numFilled := by omega
        simpa [this] using hx))
      (fun hlt x hx => hat (by omega) x (by
        simp only [filled, List.getElem?_take] at hx
        have : p < pq1._numFilled := by omega
        simpa [this] using hx))]
    apply List.ext_getElem?
    intro j
    simp only [filled, List.getElem?_take, List.getElem?_set, hcget, hsget, List.getElem?_append,
      List.getElem?_cons, List.getElem?_drop, List.length_take, List.getElem?_replicate]
    have hmin : min p (min pq1._numFilled pq1._elements.length) = p := by omega
    rw [hmin]
    by_cases hj1 : j < p
    · have e1 : j < pq1._numFilled + 1 := by omega
      have e2 : ¬ p = j := by omega
      have e3 : j < pq1._numFilled := by omega
      simp [hj1, e1, e2, e3]
    · by_cases hj2 : j = p
      · subst hj2
        have e1 : j < pq1._numFilled + 1 := by omega
        simp [e1, hplt]
      · by_cases hj3 : j < pq1._numFilled + 1
        · have e2 : ¬ p = j := by omega
          have e3 : p < j ∧ j ≤ pq1._numFilled + 1 := by omega
          have e4 : ¬ j - p = 0 := by omega
          have e5 : p + (j - p - 1) = j - 1 := by omega
          have e6 : j - 1 < pq1._numFilled := by omega
          simp [hj1, hj3, e2, e3, e4, e5, e6]
        · have e4 : ¬ j - p = 0 := by omega
          have e5 : p + (j - p - 1) = j - 1 := by omega
          have e6 : ¬ j - 1 < pq1._numFilled := by omega
          simp [hj1, hj3, e4, e5, e6]
  · exact hcapEq

end PQSortedArray

/-! ## `dequeue`, `peek` and the reachable states of `PQSortedArray` -/

namespace PQSortedArray

theorem filled_length (pq : PQSortedArray) (h : pq.WF) : pq.filled.length = pq._numFilled := by
  obtain ⟨h1, h2⟩ := h
  simp [filled]
  omega

theorem dequeue_ok (pq : PQSortedArray) (h : pq.WF) (hne : pq._numFilled ≠ 0) :
    ∃ d, pq.dequeue = (.ok d, { pq with _numFilled := pq._numFilled - 1 }) ∧
      pq._elements[pq._numFilled - 1]? = some d ∧
      pq.filled = ({ pq with _numFilled := pq._numFilled - 1 } : PQSortedArray).filled ++ [d] ∧
      ({ pq with _numFilled := pq._numFilled - 1 } : PQSortedArray).WF := by
  obtain ⟨h1, h2⟩ := h
  have hlt : pq._numFilled - 1 < pq._elements.length := by omega
  refine ⟨pq._elements[pq._numFilled - 1], ?_, List.getElem?_eq_getElem hlt, ?_, ?_⟩
  · simp [dequeue, isEmpty, size, hne, readAt_eq_ok hlt]
  · have hn : pq._numFilled = (pq._numFilled - 1) + 1 := by omega
    simp only [filled]
    conv_lhs => rw [hn, List.take_succ]
    simp [List.getElem?_eq_getElem hlt]
  · exact ⟨h1, by simp; omega⟩

theorem peek_eq_dequeue (pq : PQSortedArray) (hne : pq._numFilled ≠ 0) :
    pq.peek = pq.dequeue.1 := by
  simp [peek, dequeue, isEmpty, size, hne]

theorem dequeue_empty (pq : PQSortedArray) (he : pq._numFilled = 0) :
    pq.dequeue = (.error (.error "Cannot dequeue empty pqueue"), pq) := by
  simp [dequeue, isEmpty, size, he]

theorem new_WF : PQSortedArray.new.WF := by
  simp [WF, PQSortedArray.new, INITIAL_CAPACITY]

theorem reachable_inv {pq : PQSortedArray} (h : pq.Reachable) :
    pq.WF ∧ pq.filled.Sorted prioGe := by
  induction h with
  | fresh => exact ⟨new_WF, by simp [filled, PQSortedArray.new]⟩
  | @enqueue pq pq1 elem _ heq ih =>
    obtain ⟨pq2, h1, h2, -, h4, -⟩ := enqueue_ok pq elem ih.1
    rw [heq] at h1
    cases h1
    exact ⟨h2, by rw [h4]; exact ih.2.orderedInsert _ _⟩
  | @dequeue pq _ ih =>
    by_cases hne : pq._numFilled = 0
    · rw [dequeue_empty pq hne]
      exact ih
    · obtain ⟨d, h1, -, h3, h4⟩ := dequeue_ok pq ih.1 hne
      rw [h1]
      refine ⟨h4, ?_⟩
      have := ih.2
      rw [h3] at this
      exact (List.pairwise_append.mp this).1
  | @clear pq _ ih =>
    exact ⟨⟨ih.1.1, by simp [clear]; have := ih.1.2; omega⟩, by simp [filled, clear]⟩

theorem sorted_append_singleton_le {l : List DataPoint} {d : DataPoint}
    (h : (l ++ [d]).Sorted prioGe) : ∀ x ∈ l ++ [d], d.priority ≤ x.priority := by
  intro x hx
  rcases List.mem_append.mp hx with hx | hx
  · exact (List.pairwise_append.mp h).2.2 x hx d (by simp)
  · have : x = d := by simpa using hx
    subst this
    exact le_refl _

theorem enqueueAll_ok : ∀ (l : List DataPoint) (pq : PQSortedArray), pq.WF →
    ∃ pq1, enqueueAll l pq = .ok pq1 ∧ pq1.WF ∧
      pq1.filled = l.foldl (fun acc x => List.orderedInsert prioGe x acc) pq.filled := by
  intro l
  induction l with
  | nil => intro pq h; exact ⟨pq, rfl, h, rfl⟩
  | cons x l ih =>
    intro pq h
    obtain ⟨pq1, h1, h2, -, h4, -⟩ := enqueue_ok pq x h
    obtain ⟨pq2, h5, h6, h7⟩ := ih pq1 h2
    exact ⟨pq2, by simp [enqueueAll, h1, h5], h6, by simp [h7, h4]⟩

theorem dequeueN_ok : ∀ (n : Nat) (pq : PQSortedArray), pq.WF → pq._numFilled = n →
    ∃ pq1, dequeueN n pq = (.ok pq.filled.reverse, pq1) ∧ pq1._numFilled = 0 ∧
      pq1._numAllocated = pq._numAllocated := by
  intro n
  induction n with
  | zero =>
    intro pq h hn
    refine ⟨pq, ?_, hn, rfl⟩
    simp [dequeueN, filled, hn]
  | succ n ih =>
    intro pq h hn
    obtain ⟨d, h1, -, h3, h4⟩ := dequeue_ok pq h (by omega)
    obtain ⟨pq2, h5, h6, h7⟩ := ih _ h4 (by simp; omega)
    refine ⟨pq2, ?_, h6, by simpa using h7⟩
    simp [dequeueN, h1, h5, h3]

theorem foldl_orderedInsert_sorted (l : List DataPoint) : ∀ (acc : List DataPoint),
    acc.Sorted prioGe → (l.foldl (fun acc x => List.orderedInsert prioGe x acc) acc).Sorted prioGe := by
  induction l with
  | nil => intro acc h; exact h
  | cons x l ih => intro acc h; exact ih _ (h.orderedInsert _ _)

theorem foldl_orderedInsert_perm (l : List DataPoint) : ∀ (acc : List DataPoint),
    (l.foldl (fun acc x => List.orderedInsert prioGe x acc) acc).Perm (l ++ acc) := by
  induction l with
  | nil => intro acc; exact List.Perm.refl _
  | cons x l ih =>
    intro acc
    refine (ih _).trans ?_
    refine ((List.perm_orderedInsert prioGe x acc).append_left l).trans ?_
    simp

theorem sorted_reverse_priorities {l : List DataPoint} (h : l.Sorted prioGe) :
    (l.reverse.map DataPoint.priority).Sorted (· ≤ ·) := by
  unfold List.Sorted at *
  rw [List.pairwise_map, List.pairwise_reverse]
  exact h

end PQSortedArray

/-! ## The loops of `topK` and `pqSort` -/

theorem topKLoop_ok (k : Int) (hk : 1 ≤ k) :
    ∀ (s : List DataPoint) (data : PQSortedArray) (t : List DataPoint),
    data.WF → t.length = data._numFilled →
    ∃ data1 t1, topKLoop k s data t = .ok (data1, t1) ∧ data1.WF ∧
      data1.filled = s.foldl (topKStep k.toNat) data.filled ∧ t1.length = data1._numFilled := by
  intro s
  induction s with
  | nil => intro data t h ht; exact ⟨data, t, rfl, h, rfl, ht⟩
  | cons cur s ih =>
    intro data t h ht
    have hlen := data.filled_length h
    by_cases hlt : (data.size : Int) < k
    · obtain ⟨data1, h1, h2, h3, h4, -⟩ := PQSortedArray.enqueue_ok data cur h
      obtain ⟨data2, t2, h5, h6, h7, h8⟩ := ih data1 (t ++ [cur]) h2 (by simp [ht, h3])
      refine ⟨data2, t2, ?_, h6, ?_, h8⟩
      · simp [topKLoop, hlt, h1, h5]
      · have : data.filled.length < k.toNat := by
          rw [hlen]; simp only [PQSortedArray.size] at hlt; omega
        simp [h7, h4, topKStep, this]
    · have hne : data._numFilled ≠ 0 := by
        simp only [PQSortedArray.size] at hlt; omega
      obtain ⟨d, h1, -, h3, h4⟩ := PQSortedArray.dequeue_ok data h hne
      have hpeek : data.peek = .ok d := by rw [PQSortedArray.peek_eq_dequeue data hne, h1]
      have hnlt : ¬ data.filled.length < k.toNat := by
        rw [hlen]; simp only [PQSortedArray.size] at hlt; omega
      have hlast : data.filled.getLast? = some d := by rw [h3]; simp
      have hdrop : data.filled.dropLast
          = ({ data with _numFilled := data._numFilled - 1 } : PQSortedArray).filled := by
        rw [h3]; simp
      by_cases hgt : cur.priority > d.priority
      · obtain ⟨data1, e1, e2, e3, e4, -⟩ := PQSortedArray.enqueue_ok _ cur h4
        obtain ⟨data2, t2, h5, h6, h7, h8⟩ := ih data1 t e2 (by simp [e3, ht]; omega)
        refine ⟨data2, t2, ?_, h6, ?_, h8⟩
        · simp [topKLoop, hlt, hpeek, hgt, h1, e1, h5]
        · simp only [List.foldl_cons, h7, e4, topKStep, hnlt, hlast, if_false, hgt, if_true, hdrop]
      · obtain ⟨data2, t2, h5, h6, h7, h8⟩ := ih data t h ht
        refine ⟨data2, t2, ?_, h6, ?_, h8⟩
        · simp [topKLoop, hlt, hpeek, hgt, h5]
        · simp only [List.foldl_cons, h7, topKStep, hnlt, hlast, if_false, hgt]

theorem topKDrain_ok : ∀ (n : Nat) (data : PQSortedArray) (t : List DataPoint),
    data.WF → data._numFilled = n → n ≤ t.length →
    topKDrain n data t = .ok (data.filled ++ t.drop n) := by
  intro n
  induction n with
  | zero =>
    intro data t _ hn _
    simp [topKDrain, PQSortedArray.filled, hn]
  | succ n ih =>
    intro data t h hn hle
    obtain ⟨d, h1, -, h3, h4⟩ := PQSortedArray.dequeue_ok data h (by omega)
    have hlt : n < t.length := by omega
    have := ih _ (t.set n d) h4 (by simp; omega) (by simp; omega)
    simp only [topKDrain, h1, vecSet, List.length_set, hlt, if_true, this, h3]
    simp [List.drop_set_of_lt, List.drop_eq_getElem_cons, hlt]

theorem topKStep_length (k : Nat) (D : List DataPoint) (c : DataPoint) (h : D.length ≤ k) :
    (topKStep k D c).length = min k (D.length + 1) := by
  unfold topKStep
  by_cases hlt : D.length < k
  · simp [hlt, List.orderedInsert_length]; omega
  · have hk : D.length = k := by omega
    simp only [hlt, if_false]
    cases hl : D.getLast? with
    | none => simp [hk]
    | some w =>
      have hne : D ≠ [] := by intro h0; simp [h0] at hl
      have : D.length ≠ 0 := by simpa using hne
      simp only []
      split_ifs
      · simp [List.orderedInsert_length]; omega
      · omega

theorem foldl_topKStep_length (k : Nat) (s : List DataPoint) : ∀ (D : List DataPoint),
    D.length ≤ k → (s.foldl (topKStep k) D).length = min k (D.length + s.length) := by
  induction s with
  | nil => intro D h; simp [h]
  | cons c s ih =>
    intro D h
    have h1 := topKStep_length k D c h
    rw [List.foldl_cons, ih _ (by rw [h1]; omega), h1]
    simp only [List.length_cons]
    omega

/-! ## Keeping the `k` largest priorities -/

theorem take_orderedInsert_take (c : Int) : ∀ (L : List Int) (k : Nat),
    (List.orderedInsert (· ≥ ·) c L).take k
      = (List.orderedInsert (· ≥ ·) c (L.take k)).take k := by
  intro L
  induction L with
  | nil => intro k; simp
  | cons a t ih =>
    intro k
    cases k with
    | zero => simp
    | succ k =>
      by_cases hca : c ≥ a
      · simp only [List.take_succ_cons, List.orderedInsert, hca, if_true]
        cases k with
        | zero => simp
        | succ k => simp [List.take_take]
      · simp only [List.take_succ_cons, List.orderedInsert, hca, if_false]
        rw [ih k]

theorem dropLast_cons_of_all_eq (c : Int) : ∀ (X : List Int), (∀ x ∈ X, x = c) →
    (c :: X).dropLast = X := by
  intro X
  induction X with
  | nil => intro _; rfl
  | cons a t ih =>
    intro h
    have ha : a = c := h a (by simp)
    subst ha
    rw [List.dropLast_cons₂, ih (fun x hx => h x (by simp [hx]))]

theorem sorted_ge_getLast {D : List Int} (h : D.Sorted (· ≥ ·)) (hne : D ≠ []) :
    ∀ x ∈ D, x ≥ D.getLast hne := by
  intro x hx
  have hD := List.dropLast_append_getLast hne
  rw [← hD] at hx h
  rcases List.mem_append.mp hx with hx | hx
  · exact (List.pairwise_append.mp h).2.2 x hx _ (by simp)
  · have : x = D.getLast hne := by simpa using hx
    rw [this]

theorem dropLast_orderedInsert (c : Int) : ∀ (D : List Int) (hne : D ≠ []),
    D.Sorted (· ≥ ·) →
    (List.orderedInsert (· ≥ ·) c D).dropLast
      = if c > D.getLast hne then List.orderedInsert (· ≥ ·) c D.dropLast else D := by
  intro D
  induction D with
  | nil => intro hne; exact absurd rfl hne
  | cons a t ih =>
    intro hne hs
    cases t with
    | nil =>
      by_cases hca : c ≥ a
      · by_cases hgt : c > a
        · simp [List.orderedInsert, hca, hgt]
        · have : c = a := by omega
          simp [List.orderedInsert, this]
      · have hgt : ¬ c > a := by omega
        simp [List.orderedInsert, hca, hgt]
    | cons b t2 =>
      have hs2 : (b :: t2).Sorted (· ≥ ·) := hs.of_cons
      have hlast : (a :: b :: t2).getLast hne = (b :: t2).getLast (by simp) := by
        simp [List.getLast_cons]
      rw [hlast]
      by_cases hca : c ≥ a
      · by_cases hgt : c > (b :: t2).getLast (by simp)
        · simp [List.orderedInsert, hca, hgt]
        · have hall := sorted_ge_getLast hs hne
          rw [hlast] at hall
          have hhead : ∀ x ∈ b :: t2, a ≥ x := fun x hx => List.rel_of_sorted_cons hs x hx
          have hac : a = c := by
            have := hall a (by simp)
            omega
          have hallc : ∀ x ∈ b :: t2, x = c := by
            intro x hx
            have h1 := hall x (by simp at hx ⊢; tauto)
            have h2 := hhead x hx
            omega
          have h3 := dropLast_cons_of_all_eq c (b :: t2) hallc
          rw [List.orderedInsert, if_pos hca, if_neg hgt, List.dropLast_cons₂, hac, h3]
      · have ih2 := ih (by simp) hs2
        have hne2 : List.orderedInsert (· ≥ ·) c (b :: t2) ≠ [] := by
          intro h0
          have := List.orderedInsert_length (· ≥ ·) (b :: t2) c
          rw [h0] at this
          simp at this
        rw [List.orderedInsert, if_neg hca, List.dropLast_cons_of_ne_nil hne2, ih2]
        by_cases hgt : c > (b :: t2).getLast (by simp)
        · simp [hgt, List.orderedInsert, hca]
        · simp [hgt]

theorem take_orderedInsert_eq_step (c : Int) (k : Nat) (hk : 1 ≤ k) (L : List Int)
    (hs : L.Sorted (· ≥ ·)) :
    (List.orderedInsert (· ≥ ·) c L).take k = topKStepInt k (L.take k) c := by
  unfold topKStepInt
  by_cases hlt : L.length < k
  · have h1 : (L.take k).length < k := by simp; omega
    have h2 : L.take k = L := List.take_of_length_le (by omega)
    rw [if_pos h1, h2]
    exact List.take_of_length_le (by simp [List.orderedInsert_length]; omega)
  · have h1 : ¬ (L.take k).length < k := by simp; omega
    have hlen : (L.take k).length = k := by simp; omega
    have hne : L.take k ≠ [] := by
      intro h0
      rw [h0] at hlen
      simp at hlen
      omega
    rw [if_neg h1, List.getLast?_eq_getLast _ hne, take_orderedInsert_take]
    have hs2 : (L.take k).Sorted (· ≥ ·) := hs.sublist (List.take_sublist _ _)
    have h3 := dropLast_orderedInsert c (L.take k) hne hs2
    rw [List.dropLast_eq_take, List.orderedInsert_length, hlen] at h3
    simp only [Nat.add_sub_cancel] at h3
    rw [h3]

theorem insertionSort_append_singleton (l : List Int) (c : Int) :
    (l ++ [c]).insertionSort (· ≥ ·) = List.orderedInsert (· ≥ ·) c (l.insertionSort (· ≥ ·)) := by
  apply List.eq_of_perm_of_sorted (r := (· ≥ ·))
  · refine (List.perm_insertionSort _ _).trans ?_
    refine List.Perm.trans ?_ (List.perm_orderedInsert _ _ _).symm
    refine List.perm_append_singleton c l |>.trans ?_
    exact (List.perm_insertionSort _ _).symm.cons c
  · exact List.sorted_insertionSort _ _
  · exact (List.sorted_insertionSort _ _).orderedInsert _ _

theorem map_orderedInsert_priority (c : DataPoint) (D : List DataPoint) :
    (List.orderedInsert prioGe c D).map DataPoint.priority
      = List.orderedInsert (· ≥ ·) c.priority (D.map DataPoint.priority) := by
  induction D with
  | nil => simp
  | cons a t ih =>
    by_cases h : c.priority ≥ a.priority
    · have h2 : prioGe c a := h
      simp [List.orderedInsert, h, h2]
    · have h2 : ¬ prioGe c a := h
      simp only [List.orderedInsert, h2, if_false, List.map_cons, ih]
      simp [h]

theorem map_topKStep (k : Nat) (D : List DataPoint) (c : DataPoint) :
    (topKStep k D c).map DataPoint.priority
      = topKStepInt k (D.map DataPoint.priority) c.priority := by
  unfold topKStep topKStepInt
  by_cases hlt : D.length < k
  · simp [hlt, map_orderedInsert_priority]
  · simp only [hlt, if_false, List.length_map, List.getLast?_map]
    cases D.getLast? with
    | none => simp
    | some w =>
      simp only [Option.map_some']
      split_ifs
      · rw [map_orderedInsert_priority, List.map_dropLast]
      · rfl

theorem foldl_topKStep_priorities (k : Nat) (hk : 1 ≤ k) (s : List DataPoint) :
    (s.foldl (topKStep k) []).map DataPoint.priority
      = ((s.map DataPoint.priority).insertionSort (· ≥ ·)).take k := by
  induction s using List.reverseRecOn with
  | nil => simp
  | append_singleton s c ih =>
    rw [List.foldl_append, List.foldl_cons, List.foldl_nil, map_topKStep, ih, List.map_append,
      List.map_singleton, insertionSort_append_singleton,
      take_orderedInsert_eq_step c.priority k hk _ (List.sorted_insertionSort _ _)]

theorem topK_eq (s : List DataPoint) (k : Int) (h1 : 1 ≤ k) (h2 : k ≤ s.length) :
    topK s k = .ok (s.foldl (topKStep k.toNat) []) := by
  obtain ⟨data1, t1, e1, e2, e3, e4⟩ :=
    topKLoop_ok k h1 s PQSortedArray.new [] PQSortedArray.new_WF (by simp [PQSortedArray.new])
  have hf : PQSortedArray.new.filled = [] := by simp [PQSortedArray.filled, PQSortedArray.new]
  rw [hf] at e3
  have hlen := foldl_topKStep_length k.toNat s [] (by simp)
  rw [← e3, data1.filled_length e2] at hlen
  have hn : data1._numFilled = k.toNat := by
    rw [hlen]; simp; omega
  have ht : 0 < t1.length := by omega
  simp only [topK, e1, ht, if_true, gt_iff_lt]
  rw [topKDrain_ok k.toNat data1 t1 e2 hn (by omega), e3]
  simp [List.drop_eq_nil_of_le, e4, hn]

theorem pqSortFill_eq (v : List DataPoint) : ∀ (cnt i : Nat) (pq : PQSortedArray),
    i + cnt = v.length → pqSortFill v cnt i pq = PQSortedArray.enqueueAll (v.drop i) pq := by
  intro cnt
  induction cnt with
  | zero =>
    intro i pq h
    have : v.drop i = [] := List.drop_eq_nil_of_le (by omega)
    simp [pqSortFill, this, PQSortedArray.enqueueAll]
  | succ cnt ih =>
    intro i pq h
    have hlt : i < v.length := by omega
    rw [List.drop_eq_getElem_cons hlt]
    simp only [pqSortFill, vecGet, List.getElem?_eq_getElem hlt, PQSortedArray.enqueueAll]
    cases pq.enqueue v[i] with
    | error f => rfl
    | ok pq1 => exact ih (i + 1) pq1 (by omega)

theorem pqSortDrain_ok : ∀ (cnt i : Nat) (pq : PQSortedArray) (v : List DataPoint),
    pq.WF → pq._numFilled = cnt → i + cnt = v.length →
    pqSortDrain cnt i pq v = .ok (v.take i ++ pq.filled.reverse) := by
  intro cnt
  induction cnt with
  | zero =>
    intro i pq v _ hn hv
    have : v.take i = v := List.take_of_length_le (by omega)
    simp [pqSortDrain, PQSortedArray.filled, hn, this]
  | succ cnt ih =>
    intro i pq v h hn hv
    obtain ⟨d, h1, -, h3, h4⟩ := PQSortedArray.dequeue_ok pq h (by omega)
    have hlt : i < v.length := by omega
    have := ih (i + 1) _ (v.set i d) h4 (by simp; omega) (by simp; omega)
    have htake : List.take i (v.set i d) = List.take i v := by
      apply List.ext_getElem?
      intro j
      simp only [List.getElem?_take, List.getElem?_set]
      by_cases hj : j < i
      · have : ¬ i = j := by omega
        simp [hj, this]
      · simp [hj]
    simp only [pqSortDrain, h1, vecSet, hlt, if_true, this, h3]
    simp [List.take_succ, List.getElem?_set, hlt, htake]

/-! ## The claims -/

/-- C1: for every stream `s` and every `k` with `1 ≤ k ≤ length s`, `topK s k`
returns exactly `k` records, and their priorities, read from index 0 upward,
are the first `k` entries of the priorities of `s` sorted in descending order. -/
theorem topK_returns_k_largest (s : List DataPoint) (k : Int) (h1 : 1 ≤ k)
    (h2 : k ≤ (s.length : Int)) :
    ∃ res, topK s k = .ok res ∧ (res.length : Int) = k ∧
      res.map DataPoint.priority
        = ((s.map DataPoint.priority).insertionSort (· ≥ ·)).take k.toNat := by
  refine ⟨_, topK_eq s k h1 h2, ?_, foldl_topKStep_priorities k.toNat (by omega) s⟩
  rw [foldl_topKStep_length k.toNat s [] (by simp)]
  simp
  omega

/-- Witness of C1: the hand-worked stream of the tests with `k = 2`. -/
theorem topK_returns_k_largest_witness :
    (1 : Int) ≤ 2 ∧ (2 : Int) ≤ (([⟨"A", 1⟩, ⟨"B", 2⟩, ⟨"C", 3⟩, ⟨"D", 4⟩] : List DataPoint).length : Int) ∧
    ∃ res, topK [⟨"A", 1⟩, ⟨"B", 2⟩, ⟨"C", 3⟩, ⟨"D", 4⟩] 2 = .ok res ∧ (res.length : Int) = 2 ∧
      res.map DataPoint.priority
        = ((([⟨"A", 1⟩, ⟨"B", 2⟩, ⟨"C", 3⟩, ⟨"D", 4⟩] : List DataPoint).map
            DataPoint.priority).insertionSort (· ≥ ·)).take (2 : Int).toNat :=
  ⟨by decide, by decide,
    topK_returns_k_largest [⟨"A", 1⟩, ⟨"B", 2⟩, ⟨"C", 3⟩, ⟨"D", 4⟩] 2 (by decide) (by decide)⟩

/-- C2 (the code departs from it): for every non-empty stream `s` and every
`k` greater than `length s`, `topK s k` does not return the records of the
stream: its final loop starts at index `k - 1`, outside `trueData`, and the
checked `Vector` index raises an error. -/
theorem topK_k_exceeds_stream_fails (s : List DataPoint) (k : Int) (hs : s ≠ [])
    (hk : (s.length : Int) < k) :
    topK s k = .error (.error "Vector::operator []: index out of range") := by
  obtain ⟨data1, t1, e1, e2, e3, e4⟩ :=
    topKLoop_ok k (by omega) s PQSortedArray.new [] PQSortedArray.new_WF (by simp [PQSortedArray.new])
  have hf : PQSortedArray.new.filled = [] := by simp [PQSortedArray.filled, PQSortedArray.new]
  rw [hf] at e3
  have hlen := foldl_topKStep_length k.toNat s [] (by simp)
  rw [← e3, data1.filled_length e2] at hlen
  have hpos : 0 < s.length := List.length_pos.mpr hs
  have hn : data1._numFilled = s.length := by
    rw [hlen]; simp; omega
  have ht : 0 < t1.length := by omega
  obtain ⟨n, hkn⟩ : ∃ n, k.toNat = n + 1 := ⟨k.toNat - 1, by omega⟩
  obtain ⟨d, d1, -, -, -⟩ := PQSortedArray.dequeue_ok data1 e2 (by omega)
  have hnot : ¬ n < t1.length := by omega
  simp [topK, e1, ht, hkn, topKDrain, d1, vecSet, hnot]

/-- Witness of C2: a stream of one record with `k = 5` (the case the spec
names) raises the index error. -/
theorem topK_k_exceeds_stream_fails_witness :
    ([⟨"", 1⟩] : List DataPoint) ≠ [] ∧ ((([⟨"", 1⟩] : List DataPoint).length : Int) < 5) ∧
    topK [⟨"", 1⟩] 5 = .error (.error "Vector::operator []: index out of range") :=
  ⟨by simp, by decide, topK_k_exceeds_stream_fails [⟨"", 1⟩] 5 (by simp) (by decide)⟩

/-- C3 (the code departs from it): on every non-empty stream `topK` with
`k = 0` calls `peek` on its empty working queue at the first record and stops
with the error of `peek`, instead of returning the empty vector. -/
theorem topK_zero_nonempty_fails (cur : DataPoint) (stream : List DataPoint) :
    topK (cur :: stream) 0 = .error (.error "Cannot peek empty pqueue") := by
  simp [topK, topKLoop, PQSortedArray.size, PQSortedArray.new, PQSortedArray.peek,
    PQSortedArray.isEmpty]

/-- C4: for the empty stream and every integer `k`, `topK` raises no error and
returns the empty vector. -/
theorem topK_empty_stream (k : Int) : topK [] k = .ok [] := by
  simp [topK, topKLoop]

/-- Counterexample to C5 as stated: in the stream `A:1, B:1, C:2` with `k = 2`
the records `A` and `B` have equal priority and `A` arrives first, yet the
result holds `B` and not `A`. -/
theorem topK_first_seen_counterexample :
    (1 : Int) ≤ 2 ∧
    (2 : Int) ≤ (([⟨"A", 1⟩, ⟨"B", 1⟩, ⟨"C", 2⟩] : List DataPoint).length : Int) ∧
    topK [⟨"A", 1⟩, ⟨"B", 1⟩, ⟨"C", 2⟩] 2 = .ok [⟨"C", 2⟩, ⟨"B", 1⟩] ∧
    (⟨"A", 1⟩ : DataPoint).priority = (⟨"B", 1⟩ : DataPoint).priority ∧
    (⟨"B", 1⟩ : DataPoint) ∈ ([⟨"C", 2⟩, ⟨"B", 1⟩] : List DataPoint) ∧
    (⟨"A", 1⟩ : DataPoint) ∉ ([⟨"C", 2⟩, ⟨"B", 1⟩] : List DataPoint) :=
  ⟨by decide, by decide, rfl, rfl, by decide, by decide⟩

/-- C5, amended: a record that arrives once `k` records are retained and whose
priority does not exceed (in particular: equals) the priority of the weakest
retained record, the last record of `topK s k`, is not admitted: the result for
the stream extended by that record is the result for the stream. -/
theorem topK_tie_not_admitted (s : List DataPoint) (k : Int) (h1 : 1 ≤ k)
    (h2 : k ≤ (s.length : Int)) (c : DataPoint) (res : List DataPoint)
    (hres : topK s k = .ok res)
    (hc : ∀ w, res.getLast? = some w → c.priority ≤ w.priority) :
    topK (s ++ [c]) k = .ok res := by
  have e1 := topK_eq s k h1 h2
  rw [hres] at e1
  cases e1
  rw [topK_eq (s ++ [c]) k h1 (by simp; omega), List.foldl_append]
  simp only [List.foldl_cons, List.foldl_nil]
  have hlen := foldl_topKStep_length k.toNat s [] (by simp)
  generalize List.foldl (topKStep k.toNat) [] s = D at hc hlen hres ⊢
  have hnlt : ¬ D.length < k.toNat := by
    rw [hlen]; simp; omega
  congr 1
  unfold topKStep
  rw [if_neg hnlt]
  cases hl : D.getLast? with
  | none => rfl
  | some w =>
    have := hc w hl
    have hngt : ¬ c.priority > w.priority := by omega
    simp [hngt]

/-- Witness of C5, amended: after `A:1, B:2` with `k = 1` the record `C:2`,
equal in priority to the retained `B`, is not admitted. -/
theorem topK_tie_not_admitted_witness :
    topK ([⟨"A", 1⟩, ⟨"B", 2⟩] ++ [⟨"C", 2⟩]) 1 = .ok [⟨"B", 2⟩] :=
  topK_tie_not_admitted [⟨"A", 1⟩, ⟨"B", 2⟩] 1 (by decide) (by decide) ⟨"C", 2⟩ [⟨"B", 2⟩] rfl
    (by intro w hw; simp at hw; subst hw; decide)

/-- C6: for every vector `v`, `pqSort v` returns; the vector then has the same
length, holds the same records with the same multiplicities, and its
priorities are in non-decreasing order from index 0 upward. -/
theorem pqSort_sorts (v : List DataPoint) :
    ∃ res, pqSort v = .ok res ∧ res.length = v.length ∧ res.Perm v ∧
      (res.map DataPoint.priority).Sorted (· ≤ ·) := by
  obtain ⟨pq, h1, h2, h3⟩ := PQSortedArray.enqueueAll_ok v PQSortedArray.new PQSortedArray.new_WF
  have hf : PQSortedArray.new.filled = [] := by simp [PQSortedArray.filled, PQSortedArray.new]
  rw [hf] at h3
  have hperm : pq.filled.Perm v := by
    rw [h3]
    simpa using PQSortedArray.foldl_orderedInsert_perm v []
  have hn : pq._numFilled = v.length := by
    rw [← pq.filled_length h2]
    exact hperm.length_eq
  have hfill : pqSortFill v v.length 0 PQSortedArray.new = .ok pq := by
    rw [pqSortFill_eq v v.length 0 _ (by simp)]
    simpa using h1
  refine ⟨pq.filled.reverse, ?_, ?_, ?_, ?_⟩
  · simp only [pqSort, hfill]
    rw [pqSortDrain_ok v.length 0 pq v h2 hn (by simp)]
    simp
  · simpa using hperm.length_eq
  · exact (List.reverse_perm _).trans hperm
  · apply PQSortedArray.sorted_reverse_priorities
    rw [h3]
    exact PQSortedArray.foldl_orderedInsert_sorted v [] (by simp)

theorem PQSortedArray.enqueueAll_reachable : ∀ (l : List DataPoint) (pq pq1 : PQSortedArray),
    pq.Reachable → PQSortedArray.enqueueAll l pq = .ok pq1 → pq1.Reachable := by
  intro l
  induction l with
  | nil =>
    intro pq pq1 h e
    simp only [PQSortedArray.enqueueAll] at e
    cases e
    exact h
  | cons x l ih =>
    intro pq pq1 h e
    simp only [PQSortedArray.enqueueAll] at e
    cases hx : pq.enqueue x with
    | error f => rw [hx] at e; cases e
    | ok pq2 =>
      rw [hx] at e
      exact ih pq2 pq1 (PQSortedArray.Reachable.enqueue x h hx) e

theorem PQSortedArray.zoe_reachable : PQSortedArray.zoe.Reachable :=
  PQSortedArray.Reachable.enqueue ⟨"Zoe", -3⟩ PQSortedArray.Reachable.fresh rfl

/-- Counterexample to C7 as stated: after `enqueue({"Zoe", -3})` and
`enqueue({"Elmo", 10})` on a fresh queue, `dequeue` returns `Zoe`, whose
priority `-3` is not greater than or equal to the priority `10` of the stored
record `Elmo`. -/
theorem dequeue_not_maximal_counterexample :
    PQSortedArray.enqueueAll [⟨"Zoe", -3⟩, ⟨"Elmo", 10⟩] PQSortedArray.new
      = .ok PQSortedArray.zoeElmo ∧
    PQSortedArray.zoeElmo.Reachable ∧ PQSortedArray.zoeElmo.size ≠ 0 ∧
    PQSortedArray.zoeElmo.dequeue.1 = .ok ⟨"Zoe", -3⟩ ∧
    (⟨"Elmo", 10⟩ : DataPoint) ∈ PQSortedArray.zoeElmo.filled ∧
    ¬ ((⟨"Zoe", -3⟩ : DataPoint).priority ≥ (⟨"Elmo", 10⟩ : DataPoint).priority) :=
  ⟨by rfl,
    PQSortedArray.enqueueAll_reachable [⟨"Zoe", -3⟩, ⟨"Elmo", 10⟩] PQSortedArray.new
      PQSortedArray.zoeElmo PQSortedArray.Reachable.fresh (by rfl),
    by decide, by rfl, by decide, by decide⟩

/-- C7, amended: in every non-empty state reachable from a fresh queue by
`enqueue`, `dequeue` and `clear`, `dequeue` returns a record whose priority is
minimal among the stored records (less than or equal to the priority of every
stored record). -/
theorem dequeue_returns_minimal (pq : PQSortedArray) (h : pq.Reachable) (hne : pq.size ≠ 0) :
    ∃ d pq1, pq.dequeue = (.ok d, pq1) ∧ ∀ x ∈ pq.filled, d.priority ≤ x.priority := by
  obtain ⟨hwf, hsorted⟩ := PQSortedArray.reachable_inv h
  obtain ⟨d, h1, -, h3, -⟩ := PQSortedArray.dequeue_ok pq hwf hne
  refine ⟨d, _, h1, ?_⟩
  rw [h3] at hsorted ⊢
  exact PQSortedArray.sorted_append_singleton_le hsorted

/-- Witness of C7, amended: the queue holding the single record `Zoe`. -/
theorem dequeue_returns_minimal_witness :
    PQSortedArray.zoe.Reachable ∧ PQSortedArray.zoe.size ≠ 0 ∧
    ∃ d pq1, PQSortedArray.zoe.dequeue = (.ok d, pq1) ∧
      ∀ x ∈ PQSortedArray.zoe.filled, d.priority ≤ x.priority :=
  ⟨PQSortedArray.zoe_reachable, by decide,
    dequeue_returns_minimal PQSortedArray.zoe PQSortedArray.zoe_reachable (by decide)⟩

/-- C8: in every non-empty reachable state `dequeue` returns the record in the
last filled slot, its priority is at most the priority of every stored record,
and the stored records afterwards are the previous ones minus exactly that
record; and enqueueing the records of any list `l` into a fresh queue and
dequeueing `length l` times yields the records of `l` with priorities in
non-decreasing order and leaves size 0. -/
theorem dequeue_smallest_first (pq : PQSortedArray) (h : pq.Reachable) (hne : pq.size ≠ 0)
    (l : List DataPoint) :
    (∃ d pq1, pq.dequeue = (.ok d, pq1) ∧
      pq._elements[pq._numFilled - 1]? = some d ∧
      (∀ x ∈ pq.filled, d.priority ≤ x.priority) ∧
      pq.filled.Perm (d :: pq1.filled) ∧ pq1.size + 1 = pq.size) ∧
    (∃ full out drained, PQSortedArray.enqueueAll l PQSortedArray.new = .ok full ∧
      full.size = l.length ∧
      PQSortedArray.dequeueN l.length full = (.ok out, drained) ∧
      out.Perm l ∧ (out.map DataPoint.priority).Sorted (· ≤ ·) ∧ drained.size = 0) := by
  constructor
  · obtain ⟨hwf, hsorted⟩ := PQSortedArray.reachable_inv h
    obtain ⟨d, h1, h2, h3, -⟩ := PQSortedArray.dequeue_ok pq hwf hne
    refine ⟨d, _, h1, h2, ?_, ?_, ?_⟩
    · rw [h3] at hsorted ⊢
      exact PQSortedArray.sorted_append_singleton_le hsorted
    · rw [h3]
      exact List.perm_append_singleton d _
    · simp only [PQSortedArray.size] at hne ⊢
      omega
  · obtain ⟨full, h1, h2, h3⟩ :=
      PQSortedArray.enqueueAll_ok l PQSortedArray.new PQSortedArray.new_WF
    have hf : PQSortedArray.new.filled = [] := by simp [PQSortedArray.filled, PQSortedArray.new]
    rw [hf] at h3
    have hperm : full.filled.Perm l := by
      rw [h3]
      simpa using PQSortedArray.foldl_orderedInsert_perm l []
    have hn : full._numFilled = l.length := by
      rw [← full.filled_length h2]
      exact hperm.length_eq
    obtain ⟨drained, h4, h5, -⟩ := PQSortedArray.dequeueN_ok l.length full h2 hn
    refine ⟨full, full.filled.reverse, drained, h1, hn, h4,
      (List.reverse_perm _).trans hperm, ?_, h5⟩
    apply PQSortedArray.sorted_reverse_priorities
    rw [h3]
    exact PQSortedArray.foldl_orderedInsert_sorted l [] (by simp)

/-- Witness of C8: the queue holding `Zoe`, and the four records of the
example of the writeup. -/
theorem dequeue_smallest_first_witness :
    PQSortedArray.zoe.Reachable ∧ PQSortedArray.zoe.size ≠ 0 ∧
    (∃ d pq1, PQSortedArray.zoe.dequeue = (.ok d, pq1) ∧
      PQSortedArray.zoe._elements[PQSortedArray.zoe._numFilled - 1]? = some d ∧
      (∀ x ∈ PQSortedArray.zoe.filled, d.priority ≤ x.priority) ∧
      PQSortedArray.zoe.filled.Perm (d :: pq1.filled) ∧
      pq1.size + 1 = PQSortedArray.zoe.size) ∧
    (∃ full out drained,
      PQSortedArray.enqueueAll [⟨"Zoe", -3⟩, ⟨"Elmo", 10⟩, ⟨"Bert", 6⟩, ⟨"Kermit", 5⟩]
        PQSortedArray.new = .ok full ∧
      full.size
        = ([⟨"Zoe", -3⟩, ⟨"Elmo", 10⟩, ⟨"Bert", 6⟩, ⟨"Kermit", 5⟩] : List DataPoint).length ∧
      PQSortedArray.dequeueN
        ([⟨"Zoe", -3⟩, ⟨"Elmo", 10⟩, ⟨"Bert", 6⟩, ⟨"Kermit", 5⟩] : List DataPoint).length full
        = (.ok out, drained) ∧
      out.Perm [⟨"Zoe", -3⟩, ⟨"Elmo", 10⟩, ⟨"Bert", 6⟩, ⟨"Kermit", 5⟩] ∧
      (out.map DataPoint.priority).Sorted (· ≤ ·) ∧ drained.size = 0) :=
  ⟨PQSortedArray.zoe_reachable, by decide,
    dequeue_smallest_first PQSortedArray.zoe PQSortedArray.zoe_reachable (by decide)
      [⟨"Zoe", -3⟩, ⟨"Elmo", 10⟩, ⟨"Bert", 6⟩, ⟨"Kermit", 5⟩]⟩

/-! ## Runs that do not call `error` -/

theorem NoError.pure {α : Type} (a : α) : NoError (pure a : Except Fault α) := by
  intro msg h
  cases h

theorem NoError.bind {α β : Type} {x : Except Fault α} {f : α → Except Fault β}
    (hx : NoError x) (hf : ∀ a, NoError (f a)) : NoError (x >>= f) := by
  intro msg h
  cases x with
  | error e =>
    have : e = Fault.error msg := by
      simpa [Bind.bind, Except.bind] using h
    exact hx msg (by rw [this])
  | ok a => exact hf a msg h

theorem noError_readAt (buf : List DataPoint) (i : Nat) : NoError (readAt buf i) := by
  intro msg h
  unfold readAt at h
  cases hb : buf[i]? <;> simp [hb] at h

theorem noError_writeAt (buf : List DataPoint) (i : Nat) (d : DataPoint) :
    NoError (writeAt buf i d) := by
  intro msg h
  unfold writeAt at h
  split_ifs at h
  simp at h

theorem noError_readAtInt (buf : List DataPoint) (i : Int) : NoError (readAtInt buf i) := by
  intro msg h
  unfold readAtInt at h
  split_ifs at h
  · simp at h
  · exact noError_readAt _ _ msg h

theorem noError_writeAtInt (buf : List DataPoint) (i : Int) (d : DataPoint) :
    NoError (writeAtInt buf i d) := by
  intro msg h
  unfold writeAtInt at h
  split_ifs at h
  · simp at h
  · exact noError_writeAt _ _ _ msg h

namespace PQHeap

theorem noError_getSmallerChildIndex (pq : PQHeap) (parentIndex : Int) :
    NoError (pq.getSmallerChildIndex parentIndex) := by
  unfold getSmallerChildIndex
  refine NoError.bind (noError_readAtInt _ _) (fun l => ?_)
  refine NoError.bind (noError_readAtInt _ _) (fun r => ?_)
  split_ifs <;> exact NoError.pure _

theorem noError_dequeueTest (pq : PQHeap) (parentSpot : Int) :
    NoError (pq.dequeueTest parentSpot) := by
  unfold dequeueTest
  refine NoError.bind (noError_readAtInt _ _) (fun p => ?_)
  refine NoError.bind (noError_readAtInt _ _) (fun l => ?_)
  split_ifs
  · exact NoError.pure _
  · exact NoError.bind (noError_readAtInt _ _) (fun r => NoError.pure _)

theorem noError_dequeueLoop (bubbler : Int) : ∀ (fuel : Nat) (pq : PQHeap) (parentSpot childSpot : Int),
    NoError (dequeueLoop bubbler fuel pq parentSpot childSpot) := by
  intro fuel
  induction fuel with
  | zero =>
    intro pq parentSpot childSpot msg h
    simp [dequeueLoop] at h
  | succ fuel ih =>
    intro pq parentSpot childSpot
    unfold dequeueLoop
    split_ifs
    · refine NoError.bind (noError_dequeueTest _ _) (fun swap => ?_)
      split_ifs
      · refine NoError.bind (noError_getSmallerChildIndex _ _) (fun child => ?_)
        refine NoError.bind (noError_readAtInt _ _) (fun c => ?_)
        refine NoError.bind (noError_writeAtInt _ _ _) (fun e1 => ?_)
        refine NoError.bind (noError_readAtInt _ _) (fun b => ?_)
        refine NoError.bind (noError_writeAtInt _ _ _) (fun e2 => ?_)
        exact ih _ _ _
      · exact ih _ _ _
    · exact NoError.pure _

theorem noError_dequeueBody (fuel : Nat) (pq : PQHeap) (hne : pq.size ≠ 0) :
    NoError (pq.dequeueBody fuel) := by
  unfold dequeueBody
  have hpeek : NoError pq.peek := by
    unfold peek
    simp only [isEmpty, beq_iff_eq, hne, if_false]
    exact noError_readAt _ _
  refine NoError.bind hpeek (fun d => ?_)
  refine NoError.bind (noError_readAtInt _ _) (fun b => ?_)
  refine NoError.bind (noError_writeAt _ _ _) (fun e1 => ?_)
  refine NoError.bind (noError_dequeueLoop _ _ _ _ _) (fun pq1 => ?_)
  exact NoError.pure _

end PQHeap

theorem PQSortedArray.runOps_ok : ∀ (ops : List PQSortedArray.Op) (pq : PQSortedArray)
    (enq deq : Nat), pq.WF → pq.size + deq = enq →
    ∃ pq1 enq1 deq1, PQSortedArray.runOps ops pq enq deq = .ok (pq1, enq1, deq1) ∧
      pq1.size + deq1 = enq1 := by
  intro ops
  induction ops with
  | nil => intro pq enq deq _ h; exact ⟨pq, enq, deq, rfl, h⟩
  | cons op ops ih =>
    intro pq enq deq hwf h
    cases op with
    | enqueue elem =>
      obtain ⟨pq1, h1, h2, h3, -, -⟩ := PQSortedArray.enqueue_ok pq elem hwf
      obtain ⟨pq2, enq2, deq2, h4, h5⟩ := ih pq1 (enq + 1) deq h2 (by
        simp only [PQSortedArray.size] at h ⊢; omega)
      exact ⟨pq2, enq2, deq2, by simp [PQSortedArray.runOps, h1, h4], h5⟩
    | dequeue =>
      by_cases hne : pq._numFilled = 0
      · obtain ⟨pq2, enq2, deq2, h4, h5⟩ := ih pq enq deq hwf h
        exact ⟨pq2, enq2, deq2, by simp [PQSortedArray.runOps, PQSortedArray.dequeue_empty pq hne, h4], h5⟩
      · obtain ⟨d, h1, -, -, h3⟩ := PQSortedArray.dequeue_ok pq hwf hne
        obtain ⟨pq2, enq2, deq2, h4, h5⟩ := ih _ enq (deq + 1) h3 (by
          simp only [PQSortedArray.size] at h ⊢; omega)
        exact ⟨pq2, enq2, deq2, by simp [PQSortedArray.runOps, h1, h4], h5⟩
    | clear =>
      have hwf2 : pq.clear.WF := ⟨hwf.1, by simp [PQSortedArray.clear]; have := hwf.2; omega⟩
      obtain ⟨pq2, enq2, deq2, h4, h5⟩ := ih pq.clear 0 0 hwf2 (by
        simp [PQSortedArray.size, PQSortedArray.clear])
      exact ⟨pq2, enq2, deq2, by simp [PQSortedArray.runOps, h4], h5⟩

/-- C9: in both `PQSortedArray` and `PQHeap`, `dequeue` and `peek` end in a call
of `error` if and only if `size()` is 0, and a `dequeue` that raised the error
leaves the state (fill count, capacity, elements) as it was; `peek` is a
`const` method and has no state to change. -/
theorem empty_access_errors (pq : PQSortedArray) (hp : PQHeap) (fuel : Nat) :
    ((∃ msg, pq.dequeue.1 = .error (.error msg)) ↔ pq.size = 0) ∧
    ((∃ msg, pq.peek = .error (.error msg)) ↔ pq.size = 0) ∧
    ((∃ msg, pq.dequeue.1 = .error (.error msg)) → pq.dequeue.2 = pq) ∧
    ((∃ msg, (hp.dequeue fuel).1 = .error (.error msg)) ↔ hp.size = 0) ∧
    ((∃ msg, hp.peek = .error (.error msg)) ↔ hp.size = 0) ∧
    ((∃ msg, (hp.dequeue fuel).1 = .error (.error msg)) → (hp.dequeue fuel).2 = hp) := by
  have hsd : (∃ msg, pq.dequeue.1 = .error (.error msg)) ↔ pq.size = 0 := by
    constructor
    · rintro ⟨msg, h⟩
      by_contra hne
      simp only [PQSortedArray.dequeue, PQSortedArray.isEmpty, beq_iff_eq, hne, if_false] at h
      exact noError_readAt _ _ msg h
    · intro h0
      exact ⟨"Cannot dequeue empty pqueue", by simp [PQSortedArray.dequeue, PQSortedArray.isEmpty, h0]⟩
  have hsp : (∃ msg, pq.peek = .error (.error msg)) ↔ pq.size = 0 := by
    constructor
    · rintro ⟨msg, h⟩
      by_contra hne
      simp only [PQSortedArray.peek, PQSortedArray.isEmpty, beq_iff_eq, hne, if_false] at h
      exact noError_readAt _ _ msg h
    · intro h0
      exact ⟨"Cannot peek empty pqueue", by simp [PQSortedArray.peek, PQSortedArray.isEmpty, h0]⟩
  have hhd : (∃ msg, (hp.dequeue fuel).1 = .error (.error msg)) ↔ hp.size = 0 := by
    constructor
    · rintro ⟨msg, h⟩
      by_contra hne
      have hb := PQHeap.noError_dequeueBody fuel hp hne
      simp only [PQHeap.dequeue, PQHeap.isEmpty, beq_iff_eq, hne, if_false] at h
      cases hbody : hp.dequeueBody fuel with
      | error f =>
        rw [hbody] at h
        simp only at h
        have hf : f = Fault.error msg := by
          injection h
        exact hb msg (by rw [hbody, hf])
      | ok r =>
        rw [hbody] at h
        simp at h
    · intro h0
      exact ⟨"Cannot dequeue an empty pqueue", by simp [PQHeap.dequeue, PQHeap.isEmpty, h0]⟩
  have hhp : (∃ msg, hp.peek = .error (.error msg)) ↔ hp.size = 0 := by
    constructor
    · rintro ⟨msg, h⟩
      by_contra hne
      simp only [PQHeap.peek, PQHeap.isEmpty, beq_iff_eq, hne, if_false] at h
      exact noError_readAt _ _ msg h
    · intro h0
      exact ⟨"Cannot peek empty pqueue", by simp [PQHeap.peek, PQHeap.isEmpty, h0]⟩
  refine ⟨hsd, hsp, fun h => ?_, hhd, hhp, fun h => ?_⟩
  · have h0 := hsd.mp h
    simp [PQSortedArray.dequeue, PQSortedArray.isEmpty, h0]
  · have h0 := hhd.mp h
    simp [PQHeap.dequeue, PQHeap.isEmpty, h0]

/-- C10: after every sequence of `enqueue`, `dequeue` and `clear` calls on a
fresh `PQSortedArray` the run returns, `size()` equals the number of `enqueue`
calls minus the number of `dequeue` calls that returned a record, both counted
since the most recent `clear` (or since construction), and `isEmpty()` is true
exactly when `size()` is 0. -/
theorem size_counts_enqueues_minus_dequeues (ops : List PQSortedArray.Op) :
    ∃ pq enq deq, PQSortedArray.runOps ops PQSortedArray.new 0 0 = .ok (pq, enq, deq) ∧
      (pq.size : Int) = (enq : Int) - (deq : Int) ∧ (pq.isEmpty = true ↔ pq.size = 0) := by
  obtain ⟨pq, enq, deq, h1, h2⟩ := PQSortedArray.runOps_ok ops PQSortedArray.new 0 0
    PQSortedArray.new_WF (by simp [PQSortedArray.size, PQSortedArray.new])
  refine ⟨pq, enq, deq, h1, by omega, ?_⟩
  simp [PQSortedArray.isEmpty]

/-! ## `PQSortedArray::validateInternalState` -/

theorem prioAt_eq_of_getElem? {xs : List DataPoint} {j : Nat} {x : DataPoint}
    (h : xs[j]? = some x) : prioAt xs j = x.priority := by
  simp [prioAt, List.getD_eq_getElem?_getD, h]

theorem prioAt_take {xs : List DataPoint} {m j : Nat} (h : j < m) :
    prioAt (xs.take m) j = prioAt xs j := by
  simp [prioAt, List.getD_eq_getElem?_getD, List.getElem?_take, h]

namespace PQSortedArray

theorem sorted_adjacent (pq : PQSortedArray) (hwf : pq.WF) (hs : pq.filled.Sorted prioGe) :
    ∀ i, 1 ≤ i → i < pq._numFilled → prioAt pq._elements i ≤ prioAt pq._elements (i - 1) := by
  intro i h1 h2
  have hlen := pq.filled_length hwf
  have hp := List.pairwise_iff_getElem.mp hs (i - 1) i (by omega) (by omega) (by omega)
  have e1 : prioAt pq.filled i = prioAt pq._elements i := prioAt_take h2
  have e2 : prioAt pq.filled (i - 1) = prioAt pq._elements (i - 1) := prioAt_take (by omega)
  rw [← e1, ← e2]
  have g1 : pq.filled[i]? = some pq.filled[i] := List.getElem?_eq_getElem (by omega)
  have g2 : pq.filled[i - 1]? = some pq.filled[i - 1] := List.getElem?_eq_getElem (by omega)
  rw [prioAt_eq_of_getElem? g1, prioAt_eq_of_getElem? g2]
  exact hp

theorem validateLoop_ok (pq : PQSortedArray) (hwf : pq.WF)
    (hadj : ∀ i, 1 ≤ i → i < pq._numFilled → prioAt pq._elements i ≤ prioAt pq._elements (i - 1)) :
    ∀ (cnt i : Nat), 1 ≤ i → i + cnt = pq._numFilled → validateLoop pq cnt i = .ok () := by
  intro cnt
  induction cnt with
  | zero => intro i _ _; rfl
  | succ cnt ih =>
    intro i h1 h2
    obtain ⟨hl, hc⟩ := hwf
    have hi : i < pq._elements.length := by omega
    have hi1 : i - 1 < pq._elements.length := by omega
    have := hadj i h1 (by omega)
    rw [prioAt_eq_of_getElem? (List.getElem?_eq_getElem hi),
      prioAt_eq_of_getElem? (List.getElem?_eq_getElem hi1)] at this
    have hng : ¬ pq._elements[i].priority > pq._elements[i - 1].priority := by omega
    simp only [validateLoop, readAt_eq_ok hi, readAt_eq_ok hi1, hng, if_false]
    exact ih (i + 1) (by omega) (by omega)

end PQSortedArray

/-- C12: in every state of a `PQSortedArray` reachable from a fresh queue by
`enqueue`, `dequeue` and `clear`, the filled region is in non-increasing
priority order from index 0 upward, and `validateInternalState` returns without
an error. -/
theorem validateInternalState_succeeds (pq : PQSortedArray) (h : pq.Reachable) :
    (∀ i, 1 ≤ i → i < pq.size → prioAt pq._elements i ≤ prioAt pq._elements (i - 1)) ∧
    pq.validateInternalState = .ok () := by
  obtain ⟨hwf, hs⟩ := PQSortedArray.reachable_inv h
  have hadj := PQSortedArray.sorted_adjacent pq hwf hs
  refine ⟨hadj, ?_⟩
  have hle : ¬ pq._numFilled > pq._numAllocated := by have := hwf.2; omega
  simp only [PQSortedArray.validateInternalState, hle, if_false, PQSortedArray.size]
  by_cases h0 : pq._numFilled = 0
  · simp [h0, PQSortedArray.validateLoop]
  · exact PQSortedArray.validateLoop_ok pq hwf hadj _ 1 (le_refl _) (by omega)

/-- Witness of C12: the queue holding `Zoe` and `Elmo`. -/
theorem validateInternalState_succeeds_witness :
    PQSortedArray.zoeElmo.Reachable ∧
    (∀ i, 1 ≤ i → i < PQSortedArray.zoeElmo.size →
      prioAt PQSortedArray.zoeElmo._elements i ≤ prioAt PQSortedArray.zoeElmo._elements (i - 1)) ∧
    PQSortedArray.zoeElmo.validateInternalState = .ok () :=
  ⟨PQSortedArray.enqueueAll_reachable [⟨"Zoe", -3⟩, ⟨"Elmo", 10⟩] PQSortedArray.new
      PQSortedArray.zoeElmo PQSortedArray.Reachable.fresh (by rfl),
    validateInternalState_succeeds PQSortedArray.zoeElmo
      (PQSortedArray.enqueueAll_reachable [⟨"Zoe", -3⟩, ⟨"Elmo", 10⟩] PQSortedArray.new
        PQSortedArray.zoeElmo PQSortedArray.Reachable.fresh (by rfl))⟩

/-- C16: in both `PQSortedArray` and `PQHeap`, `clear` (a total function, it
cannot fail) sets the fill count to 0, so that `size()` is 0 and `isEmpty()` is
true, and leaves the capacity and the buffer as they were. -/
theorem clear_resets_fill_count (pq : PQSortedArray) (hp : PQHeap) :
    (pq.clear.size = 0 ∧ pq.clear.isEmpty = true ∧
      pq.clear._numAllocated = pq._numAllocated ∧ pq.clear._elements = pq._elements) ∧
    (hp.clear.size = 0 ∧ hp.clear.isEmpty = true ∧
      hp.clear._numAllocated = hp._numAllocated ∧ hp.clear._elements = hp._elements) := by
  refine ⟨⟨rfl, rfl, rfl, rfl⟩, ⟨rfl, rfl, rfl, rfl⟩⟩

/-! ## The insertion position of `PQSortedArray::enqueue` -/

theorem orderedInsert_pos (e : DataPoint) : ∀ (xs : List DataPoint),
    ∃ p, p ≤ xs.length ∧ (∀ j, j < p → e.priority < prioAt xs j) ∧
      (p < xs.length → e.priority ≥ prioAt xs p) ∧
      List.orderedInsert prioGe e xs = xs.take p ++ e :: xs.drop p := by
  intro xs
  induction xs with
  | nil => exact ⟨0, le_refl _, fun j hj => absurd hj (Nat.not_lt_zero _), fun h => absurd h (lt_irrefl _), rfl⟩
  | cons a t ih =>
    by_cases h : prioGe e a
    · refine ⟨0, Nat.zero_le _, fun j hj => absurd hj (Nat.not_lt_zero _), fun _ => ?_, ?_⟩
      · simpa [prioAt] using h
      · simp [List.orderedInsert, h]
    · obtain ⟨p, h1, h2, h3, h4⟩ := ih
      refine ⟨p + 1, by simpa using h1, fun j hj => ?_, fun hlt => ?_, ?_⟩
      · cases j with
        | zero =>
          have : ¬ e.priority ≥ a.priority := h
          simp only [prioAt, List.getD_cons_zero]
          omega
        | succ j => simpa [prioAt] using h2 j (by omega)
      · simpa [prioAt] using h3 (by simpa using hlt)
      · simp [List.orderedInsert, h, h4]

/-- C17: for every `PQSortedArray` state (with its buffer as allocated) whose
filled region is `xs`, and every record `e`, `enqueue(e)` returns and the filled
region becomes `xs[0..p)`, then `e`, then `xs[p..n)`, where `p` is the least
index with `e.priority >= xs[p].priority`, or `n` if there is none; every
record stored before is kept, in the same relative order. -/
theorem enqueue_inserts_at_first_not_larger (pq : PQSortedArray) (elem : DataPoint)
    (h : pq.WF) :
    ∃ pq1 p, pq.enqueue elem = .ok pq1 ∧ p ≤ pq.filled.length ∧
      (∀ j, j < p → elem.priority < prioAt pq.filled j) ∧
      (p < pq.filled.length → elem.priority ≥ prioAt pq.filled p) ∧
      pq1.filled = pq.filled.take p ++ elem :: pq.filled.drop p ∧
      pq.filled.Sublist pq1.filled := by
  obtain ⟨pq1, h1, -, -, h4, -⟩ := PQSortedArray.enqueue_ok pq elem h
  obtain ⟨p, e1, e2, e3, e4⟩ := orderedInsert_pos elem pq.filled
  refine ⟨pq1, p, h1, e1, e2, e3, by rw [h4, e4], ?_⟩
  rw [h4]
  exact List.sublist_orderedInsert _ _

/-- Witness of C17: `enqueue({"Elmo", 10})` on the queue holding `Zoe`. -/
theorem enqueue_inserts_at_first_not_larger_witness :
    PQSortedArray.zoe.WF ∧
    ∃ pq1 p, PQSortedArray.zoe.enqueue ⟨"Elmo", 10⟩ = .ok pq1 ∧
      p ≤ PQSortedArray.zoe.filled.length ∧
      (∀ j, j < p → (⟨"Elmo", 10⟩ : DataPoint).priority < prioAt PQSortedArray.zoe.filled j) ∧
      (p < PQSortedArray.zoe.filled.length →
        (⟨"Elmo", 10⟩ : DataPoint).priority ≥ prioAt PQSortedArray.zoe.filled p) ∧
      pq1.filled = PQSortedArray.zoe.filled.take p ++ ⟨"Elmo", 10⟩ :: PQSortedArray.zoe.filled.drop p ∧
      PQSortedArray.zoe.filled.Sublist pq1.filled :=
  ⟨by decide, enqueue_inserts_at_first_not_larger PQSortedArray.zoe ⟨"Elmo", 10⟩ (by decide)⟩

/-- C19: for every `PQHeap` state with fill count `n` and every index `i ≥ 0`,
`getLeftChildIndex(i)` is `-1` if `2i+1 >= n` and `2i+1` otherwise,
`getRightChildIndex(i)` is `-1` if `2i+2 >= n` and `2i+2` otherwise; whenever
the left result is `-1` so is the right one, and a result other than `-1` is a
filled index in `[0, n)`. -/
theorem child_index_sentinel (hp : PQHeap) (i : Int) (hi : 0 ≤ i) :
    hp.getLeftChildIndex i = (if 2 * i + 1 ≥ (hp._numFilled : Int) then -1 else 2 * i + 1) ∧
    hp.getRightChildIndex i = (if 2 * i + 2 ≥ (hp._numFilled : Int) then -1 else 2 * i + 2) ∧
    (hp.getLeftChildIndex i = -1 → hp.getRightChildIndex i = -1) ∧
    (hp.getLeftChildIndex i ≠ -1 →
      0 ≤ hp.getLeftChildIndex i ∧ hp.getLeftChildIndex i < (hp._numFilled : Int)) ∧
    (hp.getRightChildIndex i ≠ -1 →
      0 ≤ hp.getRightChildIndex i ∧ hp.getRightChildIndex i < (hp._numFilled : Int)) := by
  refine ⟨rfl, rfl, ?_, ?_, ?_⟩
  · unfold PQHeap.getLeftChildIndex PQHeap.getRightChildIndex
    intro h
    split_ifs at h ⊢ <;> omega
  · unfold PQHeap.getLeftChildIndex
    intro h
    split_ifs at h ⊢ <;> omega
  · unfold PQHeap.getRightChildIndex
    intro h
    split_ifs at h ⊢ <;> omega

/-- Witness of C19: index 0 of the heap holding `A:1, B:3, C:2`. -/
theorem child_index_sentinel_witness :
    (0 : Int) ≤ 0 ∧
    PQHeap.oneThreeTwo.getLeftChildIndex 0 = (if 2 * 0 + 1 ≥ (PQHeap.oneThreeTwo._numFilled : Int) then -1 else 2 * 0 + 1) ∧
    PQHeap.oneThreeTwo.getRightChildIndex 0 = (if 2 * 0 + 2 ≥ (PQHeap.oneThreeTwo._numFilled : Int) then -1 else 2 * 0 + 2) ∧
    (PQHeap.oneThreeTwo.getLeftChildIndex 0 = -1 → PQHeap.oneThreeTwo.getRightChildIndex 0 = -1) ∧
    (PQHeap.oneThreeTwo.getLeftChildIndex 0 ≠ -1 →
      0 ≤ PQHeap.oneThreeTwo.getLeftChildIndex 0 ∧
        PQHeap.oneThreeTwo.getLeftChildIndex 0 < (PQHeap.oneThreeTwo._numFilled : Int)) ∧
    (PQHeap.oneThreeTwo.getRightChildIndex 0 ≠ -1 →
      0 ≤ PQHeap.oneThreeTwo.getRightChildIndex 0 ∧
        PQHeap.oneThreeTwo.getRightChildIndex 0 < (PQHeap.oneThreeTwo._numFilled : Int)) :=
  ⟨le_refl _, child_index_sentinel PQHeap.oneThreeTwo 0 (le_refl _)⟩

/-! ## The sift-up loop of `PQHeap::enqueue` -/

theorem readAtInt_natCast (buf : List DataPoint) (c : Nat) :
    readAtInt buf (c : Int) = readAt buf c := by
  have : ¬ ((c : Int) < 0) := by omega
  simp [readAtInt, this]

theorem writeAtInt_natCast (buf : List DataPoint) (c : Nat) (d : DataPoint) :
    writeAtInt buf (c : Int) d = writeAt buf c d := by
  have : ¬ ((c : Int) < 0) := by omega
  simp [writeAtInt, this]

theorem PQHeap.getParentIndex_natCast (c : Nat) :
    PQHeap.getParentIndex (c : Int) = (((c - 1) / 2 : Nat) : Int) := by
  unfold PQHeap.getParentIndex
  cases c with
  | zero => decide
  | succ c =>
    have h1 : ((c + 1 : Nat) : Int) - 1 = (c : Int) := by omega
    have h2 : Int.tdiv (c : Int) 2 = (c : Int) / 2 :=
      Int.tdiv_eq_ediv (by omega) (by omega)
    rw [h1, h2]
    have h3 : ¬ ((c : Int) / 2 < 0) := by omega
    rw [if_neg h3]
    simp

theorem prioAt_set {xs : List DataPoint} {i : Nat} (x : DataPoint) (j : Nat)
    (h : i < xs.length) :
    prioAt (xs.set i x) j = if i = j then x.priority else prioAt xs j := by
  simp only [prioAt, List.getD_eq_getElem?_getD, List.getElem?_set, h, if_true]
  split_ifs <;> simp

theorem perm_cons_set (h : DataPoint) : ∀ (t : List DataPoint) (j : Nat) (y : DataPoint),
    t[j]? = some y → (y :: t.set j h).Perm (h :: t) := by
  intro t
  induction t with
  | nil => intro j y hy; simp at hy
  | cons a t ih =>
    intro j y hy
    cases j with
    | zero =>
      have : a = y := by simpa using hy
      subst this
      exact List.Perm.swap _ _ _
    | succ j =>
      have := ih j y (by simpa using hy)
      simp only [List.set_cons_succ]
      exact (List.Perm.swap a y _).trans ((this.cons a).trans (List.Perm.swap h a _))

theorem perm_swap_set : ∀ (l : List DataPoint) (i j : Nat) (x y : DataPoint),
    l[i]? = some x → l[j]? = some y → ((l.set i y).set j x).Perm l := by
  intro l
  induction l with
  | nil => intro i j x y hx; simp at hx
  | cons a t ih =>
    intro i j x y hx hy
    cases i with
    | zero =>
      have hxa : a = x := by simpa using hx
      subst hxa
      cases j with
      | zero =>
        have : a = y := by simpa using hy
        subst this
        simp
      | succ j =>
        simp only [List.set_cons_zero, List.set_cons_succ]
        exact perm_cons_set a t j y (by simpa using hy)
    | succ i =>
      cases j with
      | zero =>
        have hya : a = y := by simpa using hy
        subst hya
        simp only [List.set_cons_zero, List.set_cons_succ]
        exact perm_cons_set a t i x (by simpa using hx)
      | succ j =>
        simp only [List.set_cons_succ]
        exact (ih i j x y (by simpa using hx) (by simpa using hy)).cons a

theorem PQHeap.enqueueLoop_ok (elem : DataPoint) (m : Nat) :
    ∀ (fuel : Nat) (els : List DataPoint) (c : Nat) (ps : Int),
    c < fuel → c < m → m ≤ els.length → els[c]? = some elem → (ps = 0 → c = 0) →
    (∀ j, 1 ≤ j → j < m → j ≠ c → prioAt els ((j - 1) / 2) ≤ prioAt els j) →
    (∀ j, 1 ≤ j → j < m → (j - 1) / 2 = c → 1 ≤ c → prioAt els ((c - 1) / 2) ≤ prioAt els j) →
    ∃ els1, PQHeap.enqueueLoop elem fuel els (c : Int) ps = .ok els1 ∧
      els1.length = els.length ∧ els1.Perm els ∧ (∀ j, m ≤ j → els1[j]? = els[j]?) ∧
      (∀ j, 1 ≤ j → j < m → prioAt els1 ((j - 1) / 2) ≤ prioAt els1 j) := by
  intro fuel
  induction fuel with
  | zero => intro els c ps h; exact absurd h (Nat.not_lt_zero _)
  | succ fuel ih =>
    intro els c ps hfuel hcm hm hc hps I1 I2
    have hce : prioAt els c = elem.priority := prioAt_eq_of_getElem? hc
    by_cases hps0 : ps = 0
    · have hc0 := hps hps0
      refine ⟨els, by simp [PQHeap.enqueueLoop, hps0], rfl, List.Perm.refl _, fun _ _ => rfl, ?_⟩
      intro j h1 h2
      exact I1 j h1 h2 (by omega)
    · have hp : (c - 1) / 2 < els.length := by omega
      have hread : readAtInt els (PQHeap.getParentIndex (c : Int)) = .ok els[(c - 1) / 2] := by
        rw [PQHeap.getParentIndex_natCast, readAtInt_natCast, readAt_eq_ok hp]
      have hpe : prioAt els ((c - 1) / 2) = els[(c - 1) / 2].priority :=
        prioAt_eq_of_getElem? (List.getElem?_eq_getElem hp)
      by_cases hlt : elem.priority < els[(c - 1) / 2].priority
      · have hc1 : 1 ≤ c := by
          by_contra h0
          have hc0 : c = 0 := by omega
          subst hc0
          have : els[0]? = some els[0] := List.getElem?_eq_getElem (by omega)
          rw [this] at hc
          cases hc
          exact lt_irrefl _ hlt
        have hpc : (c - 1) / 2 < c := by omega
        have hcl : c < els.length := by omega
        have hw1 : writeAtInt els (c : Int) els[(c - 1) / 2]
            = .ok (els.set c els[(c - 1) / 2]) := by
          rw [writeAtInt_natCast, writeAt_eq_ok hcl]
        have hw2 : writeAtInt (els.set c els[(c - 1) / 2]) (PQHeap.getParentIndex (c : Int)) elem
            = .ok ((els.set c els[(c - 1) / 2]).set ((c - 1) / 2) elem) := by
          rw [PQHeap.getParentIndex_natCast, writeAtInt_natCast, writeAt_eq_ok (by simpa using hp)]
        have hcl2 : c < (els.set c els[(c - 1) / 2]).length := by simpa using hcl
        have hp2 : (c - 1) / 2 < (els.set c els[(c - 1) / 2]).length := by simpa using hp
        have hA : ∀ j, prioAt ((els.set c els[(c - 1) / 2]).set ((c - 1) / 2) elem) j
            = if (c - 1) / 2 = j then elem.priority
              else if c = j then prioAt els ((c - 1) / 2) else prioAt els j := by
          intro j
          rw [prioAt_set _ _ hp2, prioAt_set _ _ hcl, hpe]
        obtain ⟨els1, e1, e2, e3, e4, e5⟩ := ih
          ((els.set c els[(c - 1) / 2]).set ((c - 1) / 2) elem) ((c - 1) / 2)
          (((c - 1) / 2 : Nat) : Int) (by omega) (by omega) (by simpa using hm)
          (by simp [List.getElem?_set, hp]) (by omega)
          (by
            intro j h1 h2 h3
            rw [hA, hA]
            have hj := I1 j h1 h2
            have hpp := I1 ((c - 1) / 2)
            have hg := I2 j h1 h2
            by_cases j1 : c = j
            · subst j1
              simp only [if_true, if_neg h3]
              rw [hpe]
              split_ifs <;> omega
            · have hjj := hj (by omega)
              by_cases j2 : (j - 1) / 2 = (c - 1) / 2
              · rw [if_pos j2.symm, if_neg h3.symm, if_neg j1]
                rw [j2, hpe] at hjj
                omega
              · by_cases j3 : (j - 1) / 2 = c
                · have := hg j3 hc1
                  have j4 : ¬ (c - 1) / 2 = (j - 1) / 2 := fun h => j2 h.symm
                  rw [if_neg j4, if_pos j3.symm, if_neg h3.symm, if_neg j1]
                  exact this
                · have j4 : ¬ (c - 1) / 2 = (j - 1) / 2 := fun h => j2 h.symm
                  have j5 : ¬ c = (j - 1) / 2 := fun h => j3 h.symm
                  rw [if_neg j4, if_neg j5, if_neg h3.symm, if_neg j1]
                  exact hjj)
          (by
            intro j h1 h2 h3 h4
            rw [hA, hA]
            have hgp := I1 ((c - 1) / 2) h4 (by omega) (by omega)
            have g1 : ¬ (c - 1) / 2 = ((c - 1) / 2 - 1) / 2 := by omega
            have g2 : ¬ c = ((c - 1) / 2 - 1) / 2 := by omega
            have g3 : ¬ (c - 1) / 2 = j := by omega
            rw [if_neg g1, if_neg g2, if_neg g3]
            by_cases j1 : c = j
            · rw [if_pos j1]
              exact hgp
            · rw [if_neg j1]
              have := I1 j h1 h2 (fun h => j1 h.symm)
              rw [h3] at this
              omega)
        refine ⟨els1, ?_, by simpa using e2, ?_, ?_, e5⟩
        · simp only [PQHeap.enqueueLoop, hps0, ne_eq, not_false_eq_true, if_true, hread, hlt, hw1,
            hw2]
          rw [PQHeap.getParentIndex_natCast]
          exact e1
        · exact e3.trans (perm_swap_set els c ((c - 1) / 2) elem els[(c - 1) / 2] hc
            (List.getElem?_eq_getElem hp))
        · intro j hj
          rw [e4 j hj, List.getElem?_set, List.getElem?_set]
          have g1 : ¬ (c - 1) / 2 = j := by omega
          have g2 : ¬ c = j := by omega
          simp [g1, g2]
      · refine ⟨els, ?_, rfl, List.Perm.refl _, fun _ _ => rfl, ?_⟩
        · simp [PQHeap.enqueueLoop, hps0, hread, hlt]
        · intro j h1 h2
          by_cases hj : j = c
          · subst hj
            rw [hce, hpe]
            omega
          · exact I1 j h1 h2 hj

/-! ## The effect of `PQHeap::enqueue` -/

theorem isMinHeap_iff_parent (xs : List DataPoint) :
    IsMinHeap xs ↔ ∀ j, 1 ≤ j → j < xs.length → prioAt xs ((j - 1) / 2) ≤ prioAt xs j := by
  constructor
  · intro h j h1 h2
    have hi : (j - 1) / 2 < xs.length := by omega
    obtain ⟨ha, hb⟩ := h ((j - 1) / 2) hi
    rcases Nat.even_or_odd' (j - 1) with ⟨k, hk | hk⟩
    · have e1 : (j - 1) / 2 = k := by omega
      have e2 : 2 * ((j - 1) / 2) + 1 = j := by omega
      have := ha (by omega)
      rwa [e2] at this
    · have e2 : 2 * ((j - 1) / 2) + 2 = j := by omega
      have := hb (by omega)
      rwa [e2] at this
  · intro h i _
    constructor
    · intro hlt
      have := h (2 * i + 1) (by omega) hlt
      have e : (2 * i + 1 - 1) / 2 = i := by omega
      rwa [e] at this
    · intro hlt
      have := h (2 * i + 2) (by omega) hlt
      have e : (2 * i + 2 - 1) / 2 = i := by omega
      rwa [e] at this

theorem take_set_of_le (l : List DataPoint) (n i : Nat) (x : DataPoint) (h : n ≤ i) :
    (l.set i x).take n = l.take n := by
  apply List.ext_getElem?
  intro j
  simp only [List.getElem?_take, List.getElem?_set]
  by_cases hj : j < n
  · have : ¬ i = j := by omega
    simp [hj, this]
  · simp [hj]

theorem perm_take_of_perm_of_tail_eq {l1 l2 : List DataPoint} (m : Nat) (hp : l1.Perm l2)
    (ht : ∀ j, m ≤ j → l1[j]? = l2[j]?) : (l1.take m).Perm (l2.take m) := by
  have hd : l1.drop m = l2.drop m := by
    apply List.ext_getElem?
    intro j
    simp only [List.getElem?_drop]
    exact ht (m + j) (by omega)
  have h1 := List.take_append_drop m l1
  have h2 := List.take_append_drop m l2
  rw [← h1, ← h2, hd] at hp
  exact (List.perm_append_right_iff _).mp hp

namespace PQHeap

theorem heap_filled_length (pq : PQHeap) (h : pq.WF) : pq.filled.length = pq._numFilled := by
  obtain ⟨h1, h2⟩ := h
  simp [filled]
  omega

theorem heap_grow_ok (pq : PQHeap) (h : pq.WF) :
    ∃ pq1, pq.grow = .ok pq1 ∧ pq1._numFilled = pq._numFilled ∧
      pq1._elements.length = pq1._numAllocated ∧ pq1._numFilled + 2 ≤ pq1._numAllocated ∧
      pq1.filled = pq.filled ∧
      pq1._numAllocated =
        (if pq._numFilled + 1 = pq._numAllocated then 2 * pq._numAllocated else pq._numAllocated) := by
  obtain ⟨hlen, hcap⟩ := h
  by_cases hg : pq._numFilled + 1 = pq._numAllocated
  · have hg2 : (pq._numFilled : Int) = (pq._numAllocated : Int) - 1 := by omega
    obtain ⟨dst1, h1, h2, h3⟩ := PQSortedArray.copyLoop_ok pq._elements pq._numFilled 0
      (List.replicate (pq._numAllocated * 2) default) (by omega) (by simp; omega)
    refine ⟨{ pq with _elements := dst1, _numAllocated := pq._numAllocated * 2 }, ?_, rfl, ?_, ?_, ?_, ?_⟩
    · simp [grow, hg2, h1]
    · simpa using h2
    · simp; omega
    · apply List.ext_getElem?
      intro j
      simp only [filled, List.getElem?_take, h3]
      by_cases hj : j < pq._numFilled
      · simp [hj]
      · simp [hj]
    · simp [hg]; omega
  · have hg2 : ¬ (pq._numFilled : Int) = (pq._numAllocated : Int) - 1 := by omega
    refine ⟨pq, ?_, rfl, hlen, by omega, rfl, ?_⟩
    · simp [grow, hg2]
    · simp [hg]

theorem heap_enqueue_ok (pq : PQHeap) (elem : DataPoint) (h : pq.WF) (hheap : IsMinHeap pq.filled) :
    ∃ pq1, pq.enqueue elem = .ok pq1 ∧ pq1.WF ∧ pq1._numFilled = pq._numFilled + 1 ∧
      pq1.filled.Perm (elem :: pq.filled) ∧ IsMinHeap pq1.filled ∧
      pq1._numAllocated =
        (if pq._numFilled + 1 = pq._numAllocated then 2 * pq._numAllocated else pq._numAllocated) := by
  obtain ⟨pq1, hgrow, hn, hlen, hcap, hfilled, hcapEq⟩ := heap_grow_ok pq h
  have hnl : pq1._numFilled < pq1._elements.length := by omega
  have hflen : pq1.filled.length = pq1._numFilled := by simp [filled]; omega
  have hpar := (isMinHeap_iff_parent pq1.filled).mp (by rw [hfilled]; exact hheap)
  have hw0 : writeAtInt pq1._elements (pq1._numFilled : Int) elem
      = .ok (pq1._elements.set pq1._numFilled elem) := by
    rw [writeAtInt_natCast, writeAt_eq_ok hnl]
  obtain ⟨els1, e1, e2, e3, e4, e5⟩ := enqueueLoop_ok elem (pq1._numFilled + 1)
    (pq1._numFilled + 1) (pq1._elements.set pq1._numFilled elem) pq1._numFilled 1
    (by omega) (by omega) (by simp; omega) (by simp [List.getElem?_set, hnl])
    (by intro h0; exact absurd h0 (by decide))
    (by
      intro j h1 h2 h3
      have hj : j < pq1._numFilled := by omega
      rw [prioAt_set _ _ hnl, prioAt_set _ _ hnl]
      have g1 : ¬ pq1._numFilled = (j - 1) / 2 := by omega
      have g2 : ¬ pq1._numFilled = j := by omega
      rw [if_neg g1, if_neg g2]
      have := hpar j h1 (by omega)
      rwa [filled, prioAt_take (by omega), prioAt_take hj] at this)
    (by intro j h1 h2 h3 h4; omega)
  refine ⟨{ pq1 with _elements := els1, _numFilled := pq1._numFilled + 1 }, ?_, ?_, ?_, ?_, ?_, ?_⟩
  · simp [enqueue, hgrow, hw0, e1]
  · exact ⟨by simp [e2, hlen], by simp; omega⟩
  · simp [hn]
  · have hp := perm_take_of_perm_of_tail_eq (pq1._numFilled + 1) e3 e4
    refine hp.trans ?_
    rw [List.take_succ, take_set_of_le _ _ _ _ (le_refl _)]
    simp only [List.getElem?_set, hnl, if_true, Option.toList_some]
    rw [← hfilled]
    exact List.perm_append_singleton elem _
  · rw [isMinHeap_iff_parent]
    intro j h1 h2
    have hl : (List.take (pq1._numFilled + 1) els1).length = pq1._numFilled + 1 := by
      simp [e2]; omega
    simp only [filled] at h2 ⊢
    rw [hl] at h2
    rw [prioAt_take (by omega), prioAt_take h2]
    exact e5 j h1 h2
  · exact hcapEq

theorem heap_new_WF : PQHeap.new.WF := by
  simp [WF, PQHeap.new, INITIAL_CAPACITY]

theorem new_isMinHeap : IsMinHeap PQHeap.new.filled := by
  intro i hi
  simp [filled, PQHeap.new] at hi

theorem heap_enqueueAll_ok : ∀ (l : List DataPoint) (pq : PQHeap), pq.WF → IsMinHeap pq.filled →
    ∃ pq1, enqueueAll l pq = .ok pq1 ∧ pq1.WF ∧ IsMinHeap pq1.filled ∧
      pq1.filled.Perm (l ++ pq.filled) ∧ pq1._numFilled = pq._numFilled + l.length := by
  intro l
  induction l with
  | nil => intro pq h hh; exact ⟨pq, rfl, h, hh, List.Perm.refl _, rfl⟩
  | cons x l ih =>
    intro pq h hh
    obtain ⟨pq1, h1, h2, h3, h4, h5, -⟩ := heap_enqueue_ok pq x h hh
    obtain ⟨pq2, e1, e2, e3, e4, e5⟩ := ih pq1 h2 h5
    refine ⟨pq2, by simp [enqueueAll, h1, e1], e2, e3, ?_, by simp [e5, h3]; omega⟩
    refine e4.trans ?_
    refine (h4.append_left l).trans ?_
    simp

end PQHeap

/-! ## The claims on `PQHeap::enqueue` -/

theorem isMinHeap_root_le (xs : List DataPoint) (h : IsMinHeap xs) :
    ∀ j, j < xs.length → prioAt xs 0 ≤ prioAt xs j := by
  have hp := (isMinHeap_iff_parent xs).mp h
  intro j
  induction j using Nat.strong_induction_on with
  | _ j ih =>
    intro hj
    by_cases h0 : j = 0
    · subst h0; exact le_refl _
    · have h1 := hp j (by omega) hj
      have h2 := ih ((j - 1) / 2) (by omega) (by omega)
      omega

theorem PQHeap.enqueueLoop_total (elem : DataPoint) :
    ∀ (fuel : Nat) (els : List DataPoint) (c : Nat) (ps : Int),
    c < fuel → c < els.length → els[c]? = some elem →
    ∃ els1, PQHeap.enqueueLoop elem fuel els (c : Int) ps = .ok els1 ∧
      els1.length = els.length := by
  intro fuel
  induction fuel with
  | zero => intro els c ps h; exact absurd h (Nat.not_lt_zero _)
  | succ fuel ih =>
    intro els c ps hfuel hc hce
    by_cases hps0 : ps = 0
    · exact ⟨els, by simp [PQHeap.enqueueLoop, hps0], rfl⟩
    · have hp : (c - 1) / 2 < els.length := by omega
      have hread : readAtInt els (PQHeap.getParentIndex (c : Int)) = .ok els[(c - 1) / 2] := by
        rw [PQHeap.getParentIndex_natCast, readAtInt_natCast, readAt_eq_ok hp]
      by_cases hlt : elem.priority < els[(c - 1) / 2].priority
      · have hc1 : 1 ≤ c := by
          by_contra h0
          have hc0 : c = 0 := by omega
          subst hc0
          have : els[0]? = some els[0] := List.getElem?_eq_getElem (by omega)
          rw [this] at hce
          cases hce
          exact lt_irrefl _ hlt
        have hw1 : writeAtInt els (c : Int) els[(c - 1) / 2]
            = .ok (els.set c els[(c - 1) / 2]) := by
          rw [writeAtInt_natCast, writeAt_eq_ok hc]
        have hw2 : writeAtInt (els.set c els[(c - 1) / 2]) (PQHeap.getParentIndex (c : Int)) elem
            = .ok ((els.set c els[(c - 1) / 2]).set ((c - 1) / 2) elem) := by
          rw [PQHeap.getParentIndex_natCast, writeAtInt_natCast, writeAt_eq_ok (by simpa using hp)]
        obtain ⟨els1, e1, e2⟩ := ih ((els.set c els[(c - 1) / 2]).set ((c - 1) / 2) elem)
          ((c - 1) / 2) (((c - 1) / 2 : Nat) : Int) (by omega) (by simpa using hp)
          (by simp [List.getElem?_set, hp])
        refine ⟨els1, ?_, by simpa using e2⟩
        simp only [PQHeap.enqueueLoop, hps0, ne_eq, not_false_eq_true, if_true, hread, hlt, hw1,
          hw2]
        rw [PQHeap.getParentIndex_natCast]
        exact e1
      · exact ⟨els, by simp [PQHeap.enqueueLoop, hps0, hread, hlt], rfl⟩

theorem PQHeap.enqueue_capacity (pq : PQHeap) (elem : DataPoint) (h : pq.WF) :
    ∃ pq1, pq.enqueue elem = .ok pq1 ∧ pq1.WF ∧ pq1._numFilled = pq._numFilled + 1 ∧
      pq1._numAllocated =
        (if pq._numFilled + 1 = pq._numAllocated then 2 * pq._numAllocated else pq._numAllocated) := by
  obtain ⟨pq1, hgrow, hn, hlen, hcap, -, hcapEq⟩ := PQHeap.heap_grow_ok pq h
  have hnl : pq1._numFilled < pq1._elements.length := by omega
  have hw0 : writeAtInt pq1._elements (pq1._numFilled : Int) elem
      = .ok (pq1._elements.set pq1._numFilled elem) := by
    rw [writeAtInt_natCast, writeAt_eq_ok hnl]
  obtain ⟨els1, e1, e2⟩ := PQHeap.enqueueLoop_total elem (pq1._numFilled + 1)
    (pq1._elements.set pq1._numFilled elem) pq1._numFilled 1 (by omega) (by simpa using hnl)
    (by simp [List.getElem?_set, hnl])
  refine ⟨{ pq1 with _elements := els1, _numFilled := pq1._numFilled + 1 }, ?_, ?_, ?_, hcapEq⟩
  · simp [PQHeap.enqueue, hgrow, hw0, e1]
  · exact ⟨by simp [e2, hlen], by simp; omega⟩
  · simp [hn]

/-- C13: for every `PQHeap` state (with its buffer as allocated) whose filled
region satisfies the min-heap property, and every record `e`, `enqueue(e)`
returns, the fill count is one larger, the filled region is a permutation of
the old one plus `e`, and the min-heap property holds again; and the property
holds after enqueueing the records of any list into a fresh heap. -/
theorem heap_enqueue_preserves_minHeap (hp : PQHeap) (e : DataPoint) (hwf : hp.WF)
    (hheap : IsMinHeap hp.filled) (l : List DataPoint) :
    (∃ hp1, hp.enqueue e = .ok hp1 ∧ hp1.size = hp.size + 1 ∧
      hp1.filled.Perm (e :: hp.filled) ∧ IsMinHeap hp1.filled) ∧
    (∃ hpl, PQHeap.enqueueAll l PQHeap.new = .ok hpl ∧ hpl.size = l.length ∧
      hpl.filled.Perm l ∧ IsMinHeap hpl.filled) := by
  constructor
  · obtain ⟨hp1, h1, -, h3, h4, h5, -⟩ := PQHeap.heap_enqueue_ok hp e hwf hheap
    exact ⟨hp1, h1, h3, h4, h5⟩
  · obtain ⟨hpl, h1, -, h3, h4, h5⟩ :=
      PQHeap.heap_enqueueAll_ok l PQHeap.new PQHeap.heap_new_WF PQHeap.new_isMinHeap
    refine ⟨hpl, h1, ?_, ?_, h3⟩
    · simpa [PQHeap.size, PQHeap.new] using h5
    · simpa [PQHeap.filled, PQHeap.new] using h4

/-- Witness of C13: `enqueue({"T", 1})` on the heap holding `A:1, B:3, C:2`,
and the nine records of the example of the writeup. -/
theorem heap_enqueue_preserves_minHeap_witness :
    PQHeap.oneThreeTwo.WF ∧ IsMinHeap PQHeap.oneThreeTwo.filled ∧
    (∃ hp1, PQHeap.oneThreeTwo.enqueue ⟨"T", 1⟩ = .ok hp1 ∧
      hp1.size = PQHeap.oneThreeTwo.size + 1 ∧
      hp1.filled.Perm (⟨"T", 1⟩ :: PQHeap.oneThreeTwo.filled) ∧ IsMinHeap hp1.filled) ∧
    (∃ hpl, PQHeap.enqueueAll [⟨"R", 4⟩, ⟨"A", 5⟩, ⟨"B", 3⟩, ⟨"K", 7⟩, ⟨"G", 2⟩, ⟨"V", 9⟩,
        ⟨"T", 1⟩, ⟨"O", 8⟩, ⟨"S", 6⟩] PQHeap.new = .ok hpl ∧
      hpl.size = ([⟨"R", 4⟩, ⟨"A", 5⟩, ⟨"B", 3⟩, ⟨"K", 7⟩, ⟨"G", 2⟩, ⟨"V", 9⟩,
        ⟨"T", 1⟩, ⟨"O", 8⟩, ⟨"S", 6⟩] : List DataPoint).length ∧
      hpl.filled.Perm [⟨"R", 4⟩, ⟨"A", 5⟩, ⟨"B", 3⟩, ⟨"K", 7⟩, ⟨"G", 2⟩, ⟨"V", 9⟩,
        ⟨"T", 1⟩, ⟨"O", 8⟩, ⟨"S", 6⟩] ∧ IsMinHeap hpl.filled) :=
  ⟨by decide, by decide,
    heap_enqueue_preserves_minHeap PQHeap.oneThreeTwo ⟨"T", 1⟩ (by decide) (by decide)
      [⟨"R", 4⟩, ⟨"A", 5⟩, ⟨"B", 3⟩, ⟨"K", 7⟩, ⟨"G", 2⟩, ⟨"V", 9⟩, ⟨"T", 1⟩, ⟨"O", 8⟩, ⟨"S", 6⟩]⟩

/-- C15: for every non-empty list of records enqueued in the same order into a
fresh `PQSortedArray` and a fresh `PQHeap`, both runs return, both queues
report the same `size()`, and both `peek()` calls return a record of the same
priority. -/
theorem backings_agree_on_size_and_peek (l : List DataPoint) (hne : l ≠ []) :
    ∃ s h d r, PQSortedArray.enqueueAll l PQSortedArray.new = .ok s ∧
      PQHeap.enqueueAll l PQHeap.new = .ok h ∧ s.size = h.size ∧
      s.peek = .ok d ∧ h.peek = .ok r ∧ d.priority = r.priority := by
  obtain ⟨s, s1, s2, s3⟩ := PQSortedArray.enqueueAll_ok l PQSortedArray.new PQSortedArray.new_WF
  have hf : PQSortedArray.new.filled = [] := by simp [PQSortedArray.filled, PQSortedArray.new]
  rw [hf] at s3
  have sperm : s.filled.Perm l := by
    rw [s3]; simpa using PQSortedArray.foldl_orderedInsert_perm l []
  have ssorted : s.filled.Sorted prioGe := by
    rw [s3]; exact PQSortedArray.foldl_orderedInsert_sorted l [] (by simp)
  have hpos : 0 < l.length := List.length_pos.mpr hne
  have sn : s._numFilled = l.length := by
    rw [← s.filled_length s2]; exact sperm.length_eq
  obtain ⟨h, h1, h2, h3, h4, h5⟩ :=
    PQHeap.heap_enqueueAll_ok l PQHeap.new PQHeap.heap_new_WF PQHeap.new_isMinHeap
  have hn : h._numFilled = l.length := by simpa [PQHeap.new] using h5
  have hperm : h.filled.Perm l := by simpa [PQHeap.filled, PQHeap.new] using h4
  obtain ⟨d, d1, -, d3, -⟩ := PQSortedArray.dequeue_ok s s2 (by omega)
  have dpeek : s.peek = .ok d := by rw [PQSortedArray.peek_eq_dequeue s (by omega), d1]
  have dmin : ∀ x ∈ s.filled, d.priority ≤ x.priority := by
    rw [d3] at ssorted ⊢
    exact PQSortedArray.sorted_append_singleton_le ssorted
  have dmem : d ∈ s.filled := by rw [d3]; simp
  have h0 : 0 < h._elements.length := by have := h2.1; have := h2.2; omega
  have rpeek : h.peek = .ok h._elements[0] := by
    have : h.size ≠ 0 := by simp only [PQHeap.size]; omega
    simp [PQHeap.peek, PQHeap.isEmpty, this, readAt_eq_ok h0]
  have hflen := h.heap_filled_length h2
  have rfl0 : h.filled[0]? = some h._elements[0] := by
    simp only [PQHeap.filled, List.getElem?_take]
    have : 0 < h._numFilled := by omega
    simp [this, List.getElem?_eq_getElem h0]
  have rmem : h._elements[0] ∈ h.filled := List.getElem?_mem rfl0
  have rmin : ∀ x ∈ h.filled, h._elements[0].priority ≤ x.priority := by
    intro x hx
    obtain ⟨j, hj, hjx⟩ := List.getElem_of_mem hx
    have := isMinHeap_root_le h.filled h3 j hj
    rw [prioAt_eq_of_getElem? rfl0,
      prioAt_eq_of_getElem? (List.getElem?_eq_getElem hj), hjx] at this
    exact this
  refine ⟨s, h, d, h._elements[0], s1, h1, ?_, dpeek, rpeek, ?_⟩
  · simp only [PQSortedArray.size, PQHeap.size]; omega
  · have a1 := rmin d (hperm.symm.subset (sperm.subset dmem))
    have a2 := dmin _ (sperm.symm.subset (hperm.subset rmem))
    omega

/-- Witness of C15: the four records of the sorted-array example of the writeup. -/
theorem backings_agree_on_size_and_peek_witness :
    ∃ s h d r,
      PQSortedArray.enqueueAll [⟨"Zoe", -3⟩, ⟨"Elmo", 10⟩, ⟨"Bert", 6⟩, ⟨"Kermit", 5⟩]
        PQSortedArray.new = .ok s ∧
      PQHeap.enqueueAll [⟨"Zoe", -3⟩, ⟨"Elmo", 10⟩, ⟨"Bert", 6⟩, ⟨"Kermit", 5⟩] PQHeap.new
        = .ok h ∧
      s.size = h.size ∧ s.peek = .ok d ∧ h.peek = .ok r ∧ d.priority = r.priority :=
  backings_agree_on_size_and_peek [⟨"Zoe", -3⟩, ⟨"Elmo", 10⟩, ⟨"Bert", 6⟩, ⟨"Kermit", 5⟩]
    (by simp)

/-- Counterexample to C18 as stated: after nine calls of `enqueue` on a fresh
`PQSortedArray` the fill count is 9 and the capacity 10, so the fill count does
not equal the capacity, yet the tenth `enqueue` doubles the capacity to 20. -/
theorem enqueue_doubles_before_full_counterexample :
    PQSortedArray.enqueueAll [⟨"", 1⟩, ⟨"", 2⟩, ⟨"", 3⟩, ⟨"", 4⟩, ⟨"", 5⟩, ⟨"", 6⟩, ⟨"", 7⟩,
      ⟨"", 8⟩, ⟨"", 9⟩] PQSortedArray.new = .ok PQSortedArray.nine ∧
    PQSortedArray.nine._numFilled = 9 ∧ PQSortedArray.nine._numAllocated = 10 ∧
    PQSortedArray.nine._numFilled ≠ PQSortedArray.nine._numAllocated ∧
    ∃ pq1, PQSortedArray.nine.enqueue ⟨"", 10⟩ = .ok pq1 ∧ pq1._numAllocated = 20 :=
  ⟨by rfl, rfl, rfl, by decide, _, by rfl, by rfl⟩

/-- C18, amended: in both `PQSortedArray` and `PQHeap` (with the buffer as
allocated), `enqueue` returns and doubles the capacity exactly when the fill
count equals the capacity minus one before the insertion, and leaves the
capacity unchanged in every other case. -/
theorem enqueue_doubles_at_capacity_minus_one (pq : PQSortedArray) (hp : PQHeap)
    (e : DataPoint) (h1 : pq.WF) (h2 : hp.WF) :
    (∃ pq1, pq.enqueue e = .ok pq1 ∧
      pq1._numAllocated = (if (pq._numFilled : Int) = (pq._numAllocated : Int) - 1
        then 2 * pq._numAllocated else pq._numAllocated)) ∧
    (∃ hp1, hp.enqueue e = .ok hp1 ∧
      hp1._numAllocated = (if (hp._numFilled : Int) = (hp._numAllocated : Int) - 1
        then 2 * hp._numAllocated else hp._numAllocated)) := by
  constructor
  · obtain ⟨pq1, e1, -, -, -, e5⟩ := PQSortedArray.enqueue_ok pq e h1
    refine ⟨pq1, e1, ?_⟩
    rw [e5]
    have := h1.2
    split_ifs <;> omega
  · obtain ⟨hp1, e1, -, -, e5⟩ := PQHeap.enqueue_capacity hp e h2
    refine ⟨hp1, e1, ?_⟩
    rw [e5]
    have := h2.2
    split_ifs <;> omega

/-- Witness of C18, amended: the tenth `enqueue` on a sorted-array queue and
the fourth on a heap. -/
theorem enqueue_doubles_at_capacity_minus_one_witness :
    PQSortedArray.nine.WF ∧ PQHeap.oneThreeTwo.WF ∧
    (∃ pq1, PQSortedArray.nine.enqueue ⟨"", 10⟩ = .ok pq1 ∧
      pq1._numAllocated
        = (if (PQSortedArray.nine._numFilled : Int) = (PQSortedArray.nine._numAllocated : Int) - 1
          then 2 * PQSortedArray.nine._numAllocated else PQSortedArray.nine._numAllocated)) ∧
    (∃ hp1, PQHeap.oneThreeTwo.enqueue ⟨"", 10⟩ = .ok hp1 ∧
      hp1._numAllocated
        = (if (PQHeap.oneThreeTwo._numFilled : Int) = (PQHeap.oneThreeTwo._numAllocated : Int) - 1
          then 2 * PQHeap.oneThreeTwo._numAllocated else PQHeap.oneThreeTwo._numAllocated)) :=
  ⟨by decide, by decide,
    enqueue_doubles_at_capacity_minus_one PQSortedArray.nine PQHeap.oneThreeTwo ⟨"", 10⟩
      (by decide) (by decide)⟩

/-! ## The sift-down loop of `PQHeap::dequeue` and the heap's consistency check -/

theorem readAtInt_neg_one (buf : List DataPoint) :
    readAtInt buf (-1) = .error (.outOfBounds (-1)) := by
  simp [readAtInt]

namespace PQHeap

theorem getLeftChildIndex_of_lt (pq : PQHeap) (i : Nat) (h : 2 * i + 1 < pq._numFilled) :
    pq.getLeftChildIndex (i : Int) = ((2 * i + 1 : Nat) : Int) := by
  have h1 : ¬ (2 * (i : Int) + 1 ≥ (pq._numFilled : Int)) := by omega
  rw [getLeftChildIndex, if_neg h1]
  push_cast
  ring

theorem getLeftChildIndex_of_ge (pq : PQHeap) (i : Nat) (h : pq._numFilled ≤ 2 * i + 1) :
    pq.getLeftChildIndex (i : Int) = -1 := by
  have h1 : (2 * (i : Int) + 1 ≥ (pq._numFilled : Int)) := by omega
  rw [getLeftChildIndex, if_pos h1]

theorem getRightChildIndex_of_lt (pq : PQHeap) (i : Nat) (h : 2 * i + 2 < pq._numFilled) :
    pq.getRightChildIndex (i : Int) = ((2 * i + 2 : Nat) : Int) := by
  have h1 : ¬ (2 * (i : Int) + 2 ≥ (pq._numFilled : Int)) := by omega
  rw [getRightChildIndex, if_neg h1]
  push_cast
  ring

theorem getRightChildIndex_of_ge (pq : PQHeap) (i : Nat) (h : pq._numFilled ≤ 2 * i + 2) :
    pq.getRightChildIndex (i : Int) = -1 := by
  have h1 : (2 * (i : Int) + 2 ≥ (pq._numFilled : Int)) := by omega
  rw [getRightChildIndex, if_pos h1]

theorem dequeueTest_no_left (pq : PQHeap) (i : Nat) (hi : i < pq._elements.length)
    (hl : pq._numFilled ≤ 2 * i + 1) :
    pq.dequeueTest (i : Int) = .error (.outOfBounds (-1)) := by
  simp only [dequeueTest, getLeftChildIndex_of_ge pq i hl, readAtInt_natCast, readAt_eq_ok hi,
    readAtInt_neg_one, bind, Except.bind]

theorem dequeueTest_no_right (pq : PQHeap) (i : Nat) (hn : pq._numFilled ≤ pq._elements.length)
    (hl : 2 * i + 1 < pq._numFilled) (hr : pq._numFilled ≤ 2 * i + 2)
    (hle : prioAt pq._elements i ≤ prioAt pq._elements (2 * i + 1)) :
    pq.dequeueTest (i : Int) = .error (.outOfBounds (-1)) := by
  have hi : i < pq._elements.length := by omega
  have hli : 2 * i + 1 < pq._elements.length := by omega
  rw [prioAt_eq_of_getElem? (List.getElem?_eq_getElem hi),
    prioAt_eq_of_getElem? (List.getElem?_eq_getElem hli)] at hle
  have hng : ¬ pq._elements[i].priority > pq._elements[2 * i + 1].priority := by omega
  simp only [dequeueTest, getLeftChildIndex_of_lt pq i hl, getRightChildIndex_of_ge pq i hr,
    readAtInt_natCast, readAt_eq_ok hi, readAt_eq_ok hli, readAtInt_neg_one, bind, Except.bind,
    hng, if_false]

theorem dequeueTest_in_order (pq : PQHeap) (i : Nat) (hn : pq._numFilled ≤ pq._elements.length)
    (hr : 2 * i + 2 < pq._numFilled)
    (hle1 : prioAt pq._elements i ≤ prioAt pq._elements (2 * i + 1))
    (hle2 : prioAt pq._elements i ≤ prioAt pq._elements (2 * i + 2)) :
    pq.dequeueTest (i : Int) = .ok false := by
  have hi : i < pq._elements.length := by omega
  have hli : 2 * i + 1 < pq._elements.length := by omega
  have hri : 2 * i + 2 < pq._elements.length := by omega
  rw [prioAt_eq_of_getElem? (List.getElem?_eq_getElem hi),
    prioAt_eq_of_getElem? (List.getElem?_eq_getElem hli)] at hle1
  rw [prioAt_eq_of_getElem? (List.getElem?_eq_getElem hi),
    prioAt_eq_of_getElem? (List.getElem?_eq_getElem hri)] at hle2
  have hng1 : ¬ pq._elements[i].priority > pq._elements[2 * i + 1].priority := by omega
  have hng2 : ¬ pq._elements[i].priority > pq._elements[2 * i + 2].priority := by omega
  simp only [dequeueTest, getLeftChildIndex_of_lt pq i (by omega : 2 * i + 1 < pq._numFilled),
    getRightChildIndex_of_lt pq i hr, readAtInt_natCast, readAt_eq_ok hi, readAt_eq_ok hli,
    readAt_eq_ok hri, bind, Except.bind, hng1, hng2, if_false, pure, Except.pure, decide_False]

end PQHeap

theorem PQHeap.dequeue_returns_peek (fuel : Nat) (pq : PQHeap) (d : DataPoint)
    (h : (pq.dequeue fuel).1 = .ok d) : pq.peek = .ok d := by
  by_cases he : pq.isEmpty = true
  · simp [PQHeap.dequeue, he] at h
  · simp only [PQHeap.dequeue, he] at h
    cases hb : pq.dequeueBody fuel with
    | error f => rw [hb] at h; simp at h
    | ok r =>
      rw [hb] at h
      obtain ⟨d1, pq1⟩ := r
      simp at h
      subst h
      unfold PQHeap.dequeueBody at hb
      cases hp : pq.peek with
      | error f => rw [hp] at hb; simp [bind, Except.bind] at hb
      | ok v =>
        rw [hp] at hb
        simp only [bind, Except.bind] at hb
        cases h1 : readAtInt pq._elements ((pq._numFilled : Int) - 1) with
        | error f => rw [h1] at hb; simp at hb
        | ok b =>
          rw [h1] at hb
          simp only at hb
          cases h2 : writeAt pq._elements 0 b with
          | error f => rw [h2] at hb; simp at hb
          | ok e1 =>
            rw [h2] at hb
            simp only at hb
            cases h3 : PQHeap.dequeueLoop ((pq._numFilled : Int) - 1) fuel
                { pq with _elements := e1 } 0 0 with
            | error f => rw [h3] at hb; simp at hb
            | ok pq2 =>
              rw [h3] at hb
              simp only [pure, Except.pure, Except.ok.injEq, Prod.mk.injEq] at hb
              rw [hb.1]

namespace PQHeap

theorem dequeueLoop_spins (bubbler : Int) (pq : PQHeap) (hn : pq._numFilled ≤ pq._elements.length)
    (h3 : 2 < pq._numFilled)
    (hle1 : prioAt pq._elements 0 ≤ prioAt pq._elements 1)
    (hle2 : prioAt pq._elements 0 ≤ prioAt pq._elements 2) :
    ∀ fuel, dequeueLoop bubbler fuel pq 0 0 = .error .outOfFuel := by
  have hL : pq.getLeftChildIndex 0 = 1 := by
    simpa using getLeftChildIndex_of_lt pq 0 (by omega)
  have hT : pq.dequeueTest 0 = .ok false := by
    simpa using dequeueTest_in_order pq 0 hn (by omega) hle1 hle2
  intro fuel
  induction fuel with
  | zero => rfl
  | succ fuel ih =>
    simp only [dequeueLoop, hL, hT, bind, Except.bind]
    simpa using ih

theorem dequeue_spins (pq : PQHeap) (hwf : pq.WF) (h3 : 3 ≤ pq._numFilled)
    (hle1 : prioAt pq._elements (pq._numFilled - 1) ≤ prioAt pq._elements 1)
    (hle2 : prioAt pq._elements (pq._numFilled - 1) ≤ prioAt pq._elements 2) :
    ∀ fuel, pq.dequeue fuel = (.error .outOfFuel, pq) := by
  intro fuel
  obtain ⟨hlen, hcap⟩ := hwf
  have h0 : 0 < pq._elements.length := by omega
  have hb : pq._numFilled - 1 < pq._elements.length := by omega
  have hne : pq.size ≠ 0 := by simp only [size]; omega
  have hpeek : pq.peek = .ok pq._elements[0] := by
    simp [peek, isEmpty, hne, readAt_eq_ok h0]
  have hbub : ((pq._numFilled : Int) - 1) = ((pq._numFilled - 1 : Nat) : Int) := by omega
  have hbp : prioAt pq._elements (pq._numFilled - 1) = pq._elements[pq._numFilled - 1].priority :=
    prioAt_eq_of_getElem? (List.getElem?_eq_getElem hb)
  have hspin := dequeueLoop_spins ((pq._numFilled - 1 : Nat) : Int)
    { pq with _elements := pq._elements.set 0 pq._elements[pq._numFilled - 1] }
    (by simp; omega) (by simp; omega)
    (by
      simp only []
      rw [prioAt_set _ _ h0, prioAt_set _ _ h0]
      simp only [if_true]
      rw [if_neg (by omega), ← hbp]
      exact hle1)
    (by
      simp only []
      rw [prioAt_set _ _ h0, prioAt_set _ _ h0]
      simp only [if_true]
      rw [if_neg (by omega), ← hbp]
      exact hle2)
    fuel
  have hbody : pq.dequeueBody fuel = .error .outOfFuel := by
    simp only [dequeueBody, hpeek, hbub, readAtInt_natCast, readAt_eq_ok hb, writeAt_eq_ok h0,
      bind, Except.bind, hspin]
  simp [dequeue, isEmpty, hne, hbody]

theorem validateLoop_outOfBounds (pq : PQHeap) (hwf : pq.WF) (hheap : IsMinHeap pq.filled) :
    ∀ (cnt i : Nat), 1 ≤ cnt → i + cnt = pq._numFilled →
    validateLoop pq cnt i = .error (.outOfBounds (-1)) := by
  obtain ⟨hlen, hcap⟩ := hwf
  have hflen : pq.filled.length = pq._numFilled := by simp [filled]; omega
  intro cnt
  induction cnt with
  | zero => intro i h; exact absurd h (by decide)
  | succ cnt ih =>
    intro i _ hi
    have hil : i < pq._elements.length := by omega
    by_cases hl : pq._numFilled ≤ 2 * i + 1
    · simp [validateLoop, dequeueTest_no_left pq i hil hl]
    · obtain ⟨ha, hb⟩ := hheap i (by omega)
      have hle1 : prioAt pq._elements i ≤ prioAt pq._elements (2 * i + 1) := by
        have := ha (by omega)
        rwa [filled, prioAt_take (by omega), prioAt_take (by omega)] at this
      by_cases hr : pq._numFilled ≤ 2 * i + 2
      · simp [validateLoop, dequeueTest_no_right pq i (by omega) (by omega) hr hle1]
      · have hle2 : prioAt pq._elements i ≤ prioAt pq._elements (2 * i + 2) := by
          have := hb (by omega)
          rwa [filled, prioAt_take (by omega), prioAt_take (by omega)] at this
        simp only [validateLoop, dequeueTest_in_order pq i (by omega) (by omega) hle1 hle2]
        simpa using ih (i + 1) (by omega) (by omega)

theorem getSmallerChildIndex_outOfBounds (pq : PQHeap) (i : Nat)
    (hn : pq._numFilled ≤ pq._elements.length) (hr : pq._numFilled ≤ 2 * i + 2) :
    pq.getSmallerChildIndex (i : Int) = .error (.outOfBounds (-1)) := by
  by_cases hl : pq._numFilled ≤ 2 * i + 1
  · simp only [getSmallerChildIndex, getLeftChildIndex_of_ge pq i hl, readAtInt_neg_one, bind,
      Except.bind]
  · have hli : 2 * i + 1 < pq._elements.length := by omega
    simp only [getSmallerChildIndex, getLeftChildIndex_of_lt pq i (by omega),
      getRightChildIndex_of_ge pq i hr, readAtInt_natCast, readAt_eq_ok hli, readAtInt_neg_one,
      bind, Except.bind]

end PQHeap

/-- C11 (the code departs from it): on the heap holding `A:1, B:3, C:2`, reached
from a fresh heap by three calls of `enqueue`, `peek` returns `A`, but `dequeue`
never returns: whatever the fuel, its loop is still running when the fuel is
used up. -/
theorem heap_dequeue_does_not_return_peek :
    PQHeap.enqueueAll [⟨"A", 1⟩, ⟨"B", 3⟩, ⟨"C", 2⟩] PQHeap.new = .ok PQHeap.oneThreeTwo ∧
    PQHeap.oneThreeTwo.size ≠ 0 ∧
    PQHeap.oneThreeTwo.peek = .ok ⟨"A", 1⟩ ∧
    ∀ fuel, (PQHeap.oneThreeTwo.dequeue fuel).1 = .error .outOfFuel := by
  refine ⟨by rfl, by decide, by rfl, fun fuel => ?_⟩
  rw [PQHeap.dequeue_spins PQHeap.oneThreeTwo (by decide) (by decide) (by decide) (by decide) fuel]

/-- C14 (the code departs from it): on every heap state with at least three
records in which the priority of the last record is at most the priorities in
slots 1 and 2, the loop of `dequeue` never ends: whatever the fuel, `dequeue`
stops for lack of fuel and no record is returned.  Min-heaps are among these
states. -/
theorem heap_dequeue_loops_forever (pq : PQHeap) (hwf : pq.WF) (h3 : 3 ≤ pq._numFilled)
    (hle1 : prioAt pq._elements (pq._numFilled - 1) ≤ prioAt pq._elements 1)
    (hle2 : prioAt pq._elements (pq._numFilled - 1) ≤ prioAt pq._elements 2) (fuel : Nat) :
    pq.dequeue fuel = (.error .outOfFuel, pq) :=
  PQHeap.dequeue_spins pq hwf h3 hle1 hle2 fuel

/-- Witness of C14: the min-heap holding `A:1, B:3, C:2`, with fuel 1000. -/
theorem heap_dequeue_loops_forever_witness :
    IsMinHeap PQHeap.oneThreeTwo.filled ∧ PQHeap.oneThreeTwo.WF ∧
    PQHeap.oneThreeTwo.dequeue 1000 = (.error .outOfFuel, PQHeap.oneThreeTwo) :=
  ⟨by decide, by decide,
    heap_dequeue_loops_forever PQHeap.oneThreeTwo (by decide) (by decide) (by decide)
      (by decide) 1000⟩

/-- C20 (the code departs from it): on every non-empty heap state whose filled
region is a min-heap, `validateInternalState` stops at a read of
`_elements[-1]`, the sentinel used as an index; and for every index `i` without
a right child `getSmallerChildIndex(i)` reads `_elements[-1]` as well. -/
theorem heap_check_reads_sentinel_slot (pq : PQHeap) (hwf : pq.WF) (hne : 1 ≤ pq._numFilled)
    (hheap : IsMinHeap pq.filled) (i : Nat) (hi : pq._numFilled ≤ 2 * i + 2) :
    pq.validateInternalState = .error (.outOfBounds (-1)) ∧
    pq.getSmallerChildIndex (i : Int) = .error (.outOfBounds (-1)) := by
  constructor
  · have hle : ¬ pq._numFilled > pq._numAllocated := by have := hwf.2; omega
    simp only [PQHeap.validateInternalState, hle, if_false, PQHeap.size]
    exact PQHeap.validateLoop_outOfBounds pq hwf hheap pq._numFilled 0 hne (by omega)
  · exact PQHeap.getSmallerChildIndex_outOfBounds pq i (by have := hwf.1; have := hwf.2; omega) hi

/-- Witness of C20: the heap holding `A:1, B:3, C:2` and its filled index 1. -/
theorem heap_check_reads_sentinel_slot_witness :
    PQHeap.oneThreeTwo.WF ∧ 1 ≤ PQHeap.oneThreeTwo._numFilled ∧
    IsMinHeap PQHeap.oneThreeTwo.filled ∧ 1 < PQHeap.oneThreeTwo._numFilled ∧
    PQHeap.oneThreeTwo.validateInternalState = .error (.outOfBounds (-1)) ∧
    PQHeap.oneThreeTwo.getSmallerChildIndex ((1 : Nat) : Int) = .error (.outOfBounds (-1)) :=
  ⟨by decide, by decide, by decide, by decide,
    heap_check_reads_sentinel_slot PQHeap.oneThreeTwo (by decide) (by decide) (by decide) 1
      (by decide)⟩

/-! ## Index arithmetic of `PQHeap` -/

theorem PQHeap.getParentIndex_of_pos (c : Int) (hc : 1 ≤ c) :
    PQHeap.getParentIndex c = (c - 1) / 2 := by
  unfold PQHeap.getParentIndex
  have h2 : Int.tdiv (c - 1) 2 = (c - 1) / 2 := Int.tdiv_eq_ediv (by omega) (by omega)
  rw [h2]
  have h3 : ¬ ((c - 1) / 2 < 0) := by omega
  rw [if_neg h3]

/-- C21: for every `PQHeap` state and every index `i ≥ 0`, if
`getLeftChildIndex(i)` returns `c ≠ -1` then `getParentIndex(c) = i`, and the
same for `getRightChildIndex(i)`; and `getParentIndex(c)` is `(c - 1) / 2`
rounded down for every `c ≥ 1`. -/
theorem parent_of_child_index (hp : PQHeap) (i : Int) (hi : 0 ≤ i) (c : Int) (hc : 1 ≤ c) :
    (hp.getLeftChildIndex i ≠ -1 → PQHeap.getParentIndex (hp.getLeftChildIndex i) = i) ∧
    (hp.getRightChildIndex i ≠ -1 → PQHeap.getParentIndex (hp.getRightChildIndex i) = i) ∧
    PQHeap.getParentIndex c = (c - 1) / 2 := by
  refine ⟨fun h => ?_, fun h => ?_, PQHeap.getParentIndex_of_pos c hc⟩
  · unfold PQHeap.getLeftChildIndex at h ⊢
    split_ifs at h ⊢ with h1
    · exact absurd rfl h
    · rw [PQHeap.getParentIndex_of_pos _ (by omega)]
      omega
  · unfold PQHeap.getRightChildIndex at h ⊢
    split_ifs at h ⊢ with h1
    · exact absurd rfl h
    · rw [PQHeap.getParentIndex_of_pos _ (by omega)]
      omega

/-- Witness of C21: index 0 of the heap holding `A:1, B:3, C:2`, and `c = 2`. -/
theorem parent_of_child_index_witness :
    (0 : Int) ≤ 0 ∧ (1 : Int) ≤ 2 ∧
    (PQHeap.oneThreeTwo.getLeftChildIndex 0 ≠ -1 →
      PQHeap.getParentIndex (PQHeap.oneThreeTwo.getLeftChildIndex 0) = 0) ∧
    (PQHeap.oneThreeTwo.getRightChildIndex 0 ≠ -1 →
      PQHeap.getParentIndex (PQHeap.oneThreeTwo.getRightChildIndex 0) = 0) ∧
    PQHeap.getParentIndex 2 = (2 - 1) / 2 :=
  ⟨le_refl _, by decide, parent_of_child_index PQHeap.oneThreeTwo 0 (le_refl _) 2 (by decide)⟩

/-! ## Stability of `pqSort` -/

theorem filter_orderedInsert_priority (p : Int) (e : DataPoint) : ∀ (xs : List DataPoint),
    (List.orderedInsert prioGe e xs).filter (fun x => decide (x.priority = p))
      = if e.priority = p then e :: xs.filter (fun x => decide (x.priority = p))
        else xs.filter (fun x => decide (x.priority = p)) := by
  intro xs
  induction xs with
  | nil => by_cases h : e.priority = p <;> simp [h]
  | cons a t ih =>
    by_cases hge : prioGe e a
    · by_cases h : e.priority = p <;> simp [List.orderedInsert, hge, List.filter_cons, h]
    · have hne : ¬ e.priority ≥ a.priority := hge
      by_cases h : e.priority = p
      · have ha : ¬ a.priority = p := by omega
        simp [List.orderedInsert, hge, List.filter_cons, h, ha, ih]
      · by_cases ha : a.priority = p <;>
          simp [List.orderedInsert, hge, List.filter_cons, h, ha, ih]

theorem filter_foldl_orderedInsert (p : Int) (v : List DataPoint) : ∀ (acc : List DataPoint),
    (v.foldl (fun acc x => List.orderedInsert prioGe x acc) acc).filter
        (fun x => decide (x.priority = p))
      = (v.filter (fun x => decide (x.priority = p))).reverse
        ++ acc.filter (fun x => decide (x.priority = p)) := by
  induction v with
  | nil => intro acc; simp
  | cons x v ih =>
    intro acc
    rw [List.foldl_cons, ih, filter_orderedInsert_priority]
    by_cases h : x.priority = p <;> simp [List.filter_cons, h]

theorem pqSort_eq (v : List DataPoint) :
    pqSort v = .ok (v.foldl (fun acc x => List.orderedInsert prioGe x acc) []).reverse := by
  obtain ⟨pq, h1, h2, h3⟩ := PQSortedArray.enqueueAll_ok v PQSortedArray.new PQSortedArray.new_WF
  have hf : PQSortedArray.new.filled = [] := by simp [PQSortedArray.filled, PQSortedArray.new]
  rw [hf] at h3
  have hperm : pq.filled.Perm v := by
    rw [h3]
    simpa using PQSortedArray.foldl_orderedInsert_perm v []
  have hn : pq._numFilled = v.length := by
    rw [← pq.filled_length h2]
    exact hperm.length_eq
  have hfill : pqSortFill v v.length 0 PQSortedArray.new = .ok pq := by
    rw [pqSortFill_eq v v.length 0 _ (by simp)]
    simpa using h1
  simp only [pqSort, hfill]
  rw [pqSortDrain_ok v.length 0 pq v h2 hn (by simp), h3]
  simp

theorem pair_sublist_of_lt (v : List DataPoint) (i j : Nat) (hij : i < j) (hj : j < v.length) :
    [v[i], v[j]].Sublist v := by
  have hi : i < v.length := by omega
  have hsplit : v = v.take i ++ v[i] :: v.drop (i + 1) := by
    rw [← List.drop_eq_getElem_cons hi, List.take_append_drop]
  have hget : (v.drop (i + 1))[j - (i + 1)]? = some v[j] := by
    rw [List.getElem?_drop]
    have : i + 1 + (j - (i + 1)) = j := by omega
    rw [this, List.getElem?_eq_getElem hj]
  have hmem : v[j] ∈ v.drop (i + 1) := List.getElem?_mem hget
  have h1 : [v[j]].Sublist (v.drop (i + 1)) := List.singleton_sublist.mpr hmem
  have h2 : (v[i] :: [v[j]]).Sublist (v[i] :: v.drop (i + 1)) := h1.cons₂ _
  have h3 : (v[i] :: [v[j]]).Sublist (v.take i ++ v[i] :: v.drop (i + 1)) :=
    List.sublist_append_of_sublist_right h2
  rw [← hsplit] at h3
  exact h3

/-- C22: `pqSort` is stable: it returns, for every priority the records of that
priority stand in the output in the order they have in the input, and so of two
records of equal priority the one at the lower index of the input stands before
the other in the output. -/
theorem pqSort_stable (v : List DataPoint) :
    ∃ res, pqSort v = .ok res ∧
      (∀ p : Int, res.filter (fun x => decide (x.priority = p))
        = v.filter (fun x => decide (x.priority = p))) ∧
      (∀ (i j : Nat) (_ : i < j) (hj : j < v.length),
        (v.get ⟨i, by omega⟩).priority = (v.get ⟨j, hj⟩).priority →
        [v.get ⟨i, by omega⟩, v.get ⟨j, hj⟩].Sublist res) := by
  have hfilter : ∀ p : Int,
      (v.foldl (fun acc x => List.orderedInsert prioGe x acc) []).reverse.filter
          (fun x => decide (x.priority = p))
        = v.filter (fun x => decide (x.priority = p)) := by
    intro p
    rw [List.filter_reverse, filter_foldl_orderedInsert]
    simp
  refine ⟨_, pqSort_eq v, hfilter, ?_⟩
  intro i j hij hj heq
  have hpair := pair_sublist_of_lt v i j hij hj
  have h1 := hpair.filter (fun x => decide (x.priority = (v.get ⟨j, hj⟩).priority))
  rw [← hfilter] at h1
  have h2 : [v[i], v[j]].filter (fun x => decide (x.priority = (v.get ⟨j, hj⟩).priority))
      = [v[i], v[j]] := by
    have e1 : v[i].priority = v[j].priority := heq
    simp [List.filter_cons, e1]
  rw [h2] at h1
  exact h1.trans (List.filter_sublist _)

/-! ## Buffer bounds of `PQSortedArray` and the first `enqueue` of `PQHeap` -/

/-- C23: in every state of a `PQSortedArray` reachable from the constructor by
`enqueue`, `dequeue` and `clear`, `_numFilled <= _numAllocated - 1` holds, so
the capacity check of `validateInternalState` does not fire; and in every state
`q` with this invariant `enqueue` runs to its end without an access outside the
buffer it indexes (every read and write of the model is bounds checked), the
largest index it touches, `_numFilled + 1` in the first round of the shift
loop, being below the capacity the buffer has by then. -/
theorem sorted_array_accesses_in_bounds (pq : PQSortedArray) (h : pq.Reachable)
    (q : PQSortedArray) (hq : q.WF) (e : DataPoint) :
    (pq._elements.length = pq._numAllocated ∧
      (pq._numFilled : Int) ≤ (pq._numAllocated : Int) - 1 ∧
      ¬ pq._numFilled > pq._numAllocated) ∧
    (∃ q1, q.enqueue e = .ok q1 ∧ q1._elements.length = q1._numAllocated ∧
      q._numFilled + 1 < q1._numAllocated) ∧
    (∀ i, q.enqueue e ≠ .error (.outOfBounds i)) := by
  obtain ⟨hwf, -⟩ := PQSortedArray.reachable_inv h
  obtain ⟨q1, h1, h2, h3, -, -⟩ := PQSortedArray.enqueue_ok q e hq
  refine ⟨⟨hwf.1, ?_, ?_⟩, ⟨q1, h1, h2.1, ?_⟩, ?_⟩
  · have := hwf.2; omega
  · have := hwf.2; omega
  · have := h2.2; omega
  · intro i hi
    rw [h1] at hi
    cases hi

/-- Witness of C23: the reachable queue holding `Zoe` and `Elmo`, and the tenth
`enqueue` on a queue of nine records, the one that grows the buffer. -/
theorem sorted_array_accesses_in_bounds_witness :
    PQSortedArray.zoeElmo.Reachable ∧ PQSortedArray.nine.WF ∧
    (PQSortedArray.zoeElmo._elements.length = PQSortedArray.zoeElmo._numAllocated ∧
      (PQSortedArray.zoeElmo._numFilled : Int) ≤ (PQSortedArray.zoeElmo._numAllocated : Int) - 1 ∧
      ¬ PQSortedArray.zoeElmo._numFilled > PQSortedArray.zoeElmo._numAllocated) ∧
    (∃ q1, PQSortedArray.nine.enqueue ⟨"", 10⟩ = .ok q1 ∧
      q1._elements.length = q1._numAllocated ∧
      PQSortedArray.nine._numFilled + 1 < q1._numAllocated) ∧
    (∀ i, PQSortedArray.nine.enqueue ⟨"", 10⟩ ≠ .error (.outOfBounds i)) :=
  ⟨PQSortedArray.enqueueAll_reachable [⟨"Zoe", -3⟩, ⟨"Elmo", 10⟩] PQSortedArray.new
      PQSortedArray.zoeElmo PQSortedArray.Reachable.fresh (by rfl),
    by decide,
    sorted_array_accesses_in_bounds PQSortedArray.zoeElmo
      (PQSortedArray.enqueueAll_reachable [⟨"Zoe", -3⟩, ⟨"Elmo", 10⟩] PQSortedArray.new
        PQSortedArray.zoeElmo PQSortedArray.Reachable.fresh (by rfl))
      PQSortedArray.nine (by decide) ⟨"", 10⟩⟩

theorem PQHeap.enqueueLoop_at_root (elem : DataPoint) (buf : List DataPoint)
    (h : buf[0]? = some elem) (fuel : Nat) :
    PQHeap.enqueueLoop elem (fuel + 1) buf 0 1 = .ok buf := by
  have hlen : 0 < buf.length := by
    by_contra h0
    have : buf = [] := by
      cases buf with
      | nil => rfl
      | cons a t => simp at h0
    subst this
    simp at h
  have hx : buf[0] = elem := by
    rw [List.getElem?_eq_getElem hlen] at h
    exact Option.some.inj h
  have hpar : PQHeap.getParentIndex 0 = 0 := by decide
  have hread : readAtInt buf 0 = .ok elem := by
    have := readAtInt_natCast buf 0
    simp only [Nat.cast_zero] at this
    rw [this, readAt_eq_ok hlen, hx]
  simp [PQHeap.enqueueLoop, hpar, hread]

/-- C24: `getParentIndex` never returns `-1` for an index `c ≥ 0`;
`getParentIndex(0)` is `0`, because `(0 - 1) / 2` truncates to `0`; so on an
empty heap `enqueue` compares the new record with itself at slot 0 (the loop
entered at slot 0 returns the buffer as it is, without a swap) and returns with
the record at index 0 and fill count 1. -/
theorem first_heap_enqueue_stays_at_root (c : Int) (hc : 0 ≤ c) (hp : PQHeap) (hwf : hp.WF)
    (hempty : hp._numFilled = 0) (e : DataPoint) :
    (PQHeap.getParentIndex c ≠ -1 ∧ 0 ≤ PQHeap.getParentIndex c) ∧
    (Int.tdiv (0 - 1) 2 = 0 ∧ PQHeap.getParentIndex 0 = 0) ∧
    (∀ (buf : List DataPoint) (fuel : Nat), buf[0]? = some e →
      readAtInt buf (PQHeap.getParentIndex 0) = .ok e ∧
      PQHeap.enqueueLoop e (fuel + 1) buf 0 1 = .ok buf) ∧
    (∃ hp1, hp.enqueue e = .ok hp1 ∧ hp1._numFilled = 1 ∧ hp1._elements[0]? = some e ∧
      hp1.filled = [e]) := by
  have hpar : PQHeap.getParentIndex 0 = 0 := by decide
  have hnn : 0 ≤ PQHeap.getParentIndex c := by
    rcases Int.eq_ofNat_of_zero_le hc with ⟨n, rfl⟩
    rw [PQHeap.getParentIndex_natCast]
    omega
  refine ⟨⟨by omega, hnn⟩, ⟨by decide, hpar⟩, ?_, ?_⟩
  · intro buf fuel hb
    refine ⟨?_, PQHeap.enqueueLoop_at_root e buf hb fuel⟩
    have hlen : 0 < buf.length := by
      by_contra h0
      have : buf.length = 0 := by omega
      rw [List.getElem?_eq_none (by omega)] at hb
      cases hb
    rw [hpar]
    have := readAtInt_natCast buf 0
    simp only [Nat.cast_zero] at this
    rw [this, readAt_eq_ok hlen]
    rw [List.getElem?_eq_getElem hlen] at hb
    rw [Option.some.inj hb]
  · obtain ⟨pq1, hgrow, hn, hlen, hcap, -, -⟩ := PQHeap.heap_grow_ok hp hwf
    have hn0 : pq1._numFilled = 0 := by rw [hn, hempty]
    have hnl : 0 < pq1._elements.length := by omega
    have hw0 : writeAtInt pq1._elements (pq1._numFilled : Int) e
        = .ok (pq1._elements.set 0 e) := by
      rw [writeAtInt_natCast, hn0, writeAt_eq_ok hnl]
    have hset : (pq1._elements.set 0 e)[0]? = some e := by
      simp [List.getElem?_set, hnl]
    have hloop := PQHeap.enqueueLoop_at_root e (pq1._elements.set 0 e) hset 0
    refine ⟨{ pq1 with _elements := pq1._elements.set 0 e, _numFilled := pq1._numFilled + 1 },
      ?_, by simp [hn0], hset, ?_⟩
    · simp only [PQHeap.enqueue, hgrow, hw0]
      rw [hn0]
      simp only [Nat.cast_zero, zero_add]
      rw [hloop]
    · simp only [PQHeap.filled, hn0, zero_add]
      rw [List.take_succ]
      simp [hset]

/-- Witness of C24: index 5 and the first `enqueue` on a fresh heap. -/
theorem first_heap_enqueue_stays_at_root_witness :
    (0 : Int) ≤ 5 ∧ PQHeap.new.WF ∧ PQHeap.new._numFilled = 0 ∧
    (PQHeap.getParentIndex 5 ≠ -1 ∧ 0 ≤ PQHeap.getParentIndex 5) ∧
    (Int.tdiv (0 - 1) 2 = 0 ∧ PQHeap.getParentIndex 0 = 0) ∧
    (∀ (buf : List DataPoint) (fuel : Nat), buf[0]? = some (⟨"R", 4⟩ : DataPoint) →
      readAtInt buf (PQHeap.getParentIndex 0) = .ok ⟨"R", 4⟩ ∧
      PQHeap.enqueueLoop ⟨"R", 4⟩ (fuel + 1) buf 0 1 = .ok buf) ∧
    (∃ hp1, PQHeap.new.enqueue ⟨"R", 4⟩ = .ok hp1 ∧ hp1._numFilled = 1 ∧
      hp1._elements[0]? = some ⟨"R", 4⟩ ∧ hp1.filled = [⟨"R", 4⟩]) :=
  ⟨by decide, by decide, rfl,
    first_heap_enqueue_stays_at_root 5 (by decide) PQHeap.new (by decide) rfl ⟨"R", 4⟩⟩
